import Mathlib

/-!
Verification of the tile-parallel sample-accumulation engine: the `Spiral`
tile scheduler (src/librender/spiral.cpp), the `ImageBlock` accumulation
buffer (src/librender/imageblock.cpp) and the reconstruction-filter
discretization (src/libcore/rfilter.cpp), shallowly embedded over exact
arithmetic (`Int` for pixel indices, `Rat` for sample values and filter
weights).
-/

namespace Mitsuba

/-! ## Spiral traversal state (spiral.cpp)

`TravState` models the mutable traversal fields of `Spiral`:
`m_position`, `m_current_direction`, `m_steps_left`, `m_steps`.
Directions are encoded as in the C++ enum: 0 = ERight, 1 = EDown,
2 = ELeft, 3 = EUp. -/

structure TravState where
  pos : Int × Int
  dir : Nat
  stepsLeft : Nat
  steps : Nat
  deriving Repr, DecidableEq

/-- Unit displacement of each direction: ERight increments x, EDown
increments y, ELeft decrements x, EUp decrements y
(spiral.cpp lines 50-55). -/
def dirVec (d : Nat) : Int × Int :=
  if d = 0 then (1, 0)
  else if d = 1 then (0, 1)
  else if d = 2 then (-1, 0)
  else (0, -1)

/-- One iteration of the do-while body of `Spiral::next_block`
(spiral.cpp lines 49-62): move one cell in the current direction,
decrement `m_steps_left`; on reaching zero rotate the direction through
the 4-cycle and, when the new direction is ELeft or ERight, increment
`m_steps`. -/
def advance (s : TravState) : TravState :=
  let p := (s.pos.1 + (dirVec s.dir).1, s.pos.2 + (dirVec s.dir).2)
  if s.stepsLeft = 1 then
    let d := (s.dir + 1) % 4
    let st := if d = 2 ∨ d = 0 then s.steps + 1 else s.steps
    ⟨p, d, st, st⟩
  else
    ⟨p, s.dir, s.stepsLeft - 1, s.steps⟩

/-- The traversal state set by `Spiral::reset` (spiral.cpp lines 18-24):
position at the grid center `c`, direction ERight, one step remaining. -/
def travInit (c : Int × Int) : TravState := ⟨c, 0, 1, 1⟩

/-- Traversal state after `n` advance iterations from the reset state. -/
def stateAt (c : Int × Int) (n : Nat) : TravState := advance^[n] (travInit c)

/-- Grid cell occupied after `n` advance iterations from the reset state. -/
def posAt (c : Int × Int) (n : Nat) : Int × Int := (stateAt c n).pos

/-- Number of advance iterations after which the expanding square spiral
has visited the full square of Chebyshev radius `k` around the center:
`T k = (2k+1)^2 - 1`. -/
def T (k : Nat) : Nat := 4 * k * k + 4 * k

/-- The traversal state at iteration `T k`: at the south-east corner
offset `(k, -k)` of ring `k`, heading ERight with one step left before
rotation, ring length `2k+1`. -/
def ckpt (c : Int × Int) (k : Nat) : TravState :=
  ⟨(c.1 + k, c.2 - k), 0, 1, 2 * k + 1⟩

/-- Membership in the Chebyshev square of radius `k` centered at `c`. -/
def inSq (c : Int × Int) (k : Nat) (q : Int × Int) : Prop :=
  c.1 - k ≤ q.1 ∧ q.1 ≤ c.1 + k ∧ c.2 - k ≤ q.2 ∧ q.2 ≤ c.2 + k

instance (c k q) : Decidable (inSq c k q) := by unfold inSq; infer_instance

/-- Offset (relative to the center) of the `j`-th cell of ring `k+1`,
in traversal order: east column downward-in-y first, then north row,
west column, south row. -/
def ringPos (k j : Nat) : Int × Int :=
  if j ≤ 2 * k + 1 then ((k : Int) + 1, -(k : Int) + j)
  else if j ≤ 4 * k + 3 then ((k : Int) - (j - (2 * k + 2) : Nat), (k : Int) + 1)
  else if j ≤ 6 * k + 5 then (-((k : Int) + 1), (k : Int) - (j - (4 * k + 4) : Nat))
  else (-(k : Int) + (j - (6 * k + 6) : Nat), -((k : Int) + 1))

/-! ## The Spiral scheduler object (spiral.cpp)

Integer fields mirror the C++ members; sizes are nonnegative rasters, so
`m_size`, `m_blocks` are kept as natural numbers and cast to `Int` where
the C++ does signed arithmetic.  A call that would trip the
`Assert(all(size > 0))` in `next_block`, or whose do-while advance loop
never finds an in-range cell, is modelled as `none`. -/

/-- Ceiling division, the exact value of
`ceil(Vector2f(m_size) / m_block_size)` for nonnegative sizes
(spiral.cpp line 12). -/
def cdiv (n bs : Nat) : Nat := (n + bs - 1) / bs

structure Spiral where
  blockCounter : Nat
  blockCount : Nat
  blockSize : Nat
  sizeX : Nat
  sizeY : Nat
  offX : Int
  offY : Int
  blocksX : Nat
  blocksY : Nat
  trav : TravState
  remainingPasses : Nat
  deriving Repr, DecidableEq

/-- Spiral grid center `m_blocks / 2` (integer division). -/
def gridCenter (bX bY : Nat) : Int × Int := ((bX / 2 : Nat), (bY / 2 : Nat))

/-- `Spiral::reset` (spiral.cpp lines 18-24). -/
def Spiral.reset (s : Spiral) : Spiral :=
  { s with blockCounter := 0, trav := travInit (gridCenter s.blocksX s.blocksY) }

/-- `Spiral::Spiral` (spiral.cpp lines 7-16). -/
def spiralInit (W H : Nat) (ox oy : Int) (bs passes : Nat) : Spiral :=
  Spiral.reset
    { blockCounter := 0
      blockCount := cdiv W bs * cdiv H bs
      blockSize := bs
      sizeX := W
      sizeY := H
      offX := ox
      offY := oy
      blocksX := cdiv W bs
      blocksY := cdiv H bs
      trav := travInit (gridCenter (cdiv W bs) (cdiv H bs))
      remainingPasses := passes }

/-- Whether a cell lies inside the block grid, i.e. the negation of the
do-while guard `any(m_position < 0 || m_position >= m_blocks)`
(spiral.cpp line 63). -/
def inGridB (bX bY : Nat) (q : Int × Int) : Bool :=
  decide (0 ≤ q.1) && decide (q.1 < (bX : Int)) && decide (0 ≤ q.2) && decide (q.2 < (bY : Int))

/-- Fuel bound for the do-while loop: one more than the number of
iterations after which the spiral has covered every cell of the square
enclosing the whole block grid. -/
def spiralFuel (bX bY : Nat) : Nat := T (max bX bY) + 1

/-- The do-while advance loop of `next_block` (spiral.cpp lines 49-63),
with explicit fuel: advance at least once, then keep advancing while the
position is outside the grid.  Fuel exhaustion (`none`) models
non-termination. -/
def loopAdv (bX bY : Nat) : Nat → TravState → Option TravState
  | 0, _ => none
  | f + 1, t =>
    let t' := advance t
    if inGridB bX bY t'.pos then some t' else loopAdv bX bY f t'

/-- A returned tile: (offset, size). -/
abbrev Tile := (Int × Int) × (Int × Int)

/-- The tile-emitting tail of `next_block` (spiral.cpp lines 39-66):
compute the pixel rectangle of the current position, assert positive
size, bump the counter and, unless the pass just completed, step the
spiral to the next in-range cell. -/
def emitAdvance (s : Spiral) : Option (Spiral × Tile) :=
  let offX := s.trav.pos.1 * (s.blockSize : Int)
  let offY := s.trav.pos.2 * (s.blockSize : Int)
  let szX := min (s.blockSize : Int) ((s.sizeX : Int) - offX)
  let szY := min (s.blockSize : Int) ((s.sizeY : Int) - offY)
  if 0 < szX ∧ 0 < szY then
    let s' := { s with blockCounter := s.blockCounter + 1 }
    if s'.blockCounter ≠ s.blockCount then
      match loopAdv s.blocksX s.blocksY (spiralFuel s.blocksX s.blocksY) s.trav with
      | some t => some ({ s' with trav := t }, ((offX + s.offX, offY + s.offY), (szX, szY)))
      | none => none
    else some (s', ((offX + s.offX, offY + s.offY), (szX, szY)))
  else none

/-- `Spiral::next_block` (spiral.cpp lines 26-67). -/
def nextBlock (s : Spiral) : Option (Spiral × Tile) :=
  if s.blockCounter = s.blockCount then
    if 1 < s.remainingPasses then
      emitAdvance (Spiral.reset { s with remainingPasses := s.remainingPasses - 1 })
    else some (s, ((0, 0), (0, 0)))
  else emitAdvance s

/-- Run `n` successive calls to `next_block`, collecting the returned
tiles in order. -/
def runTiles : Nat → Spiral → Option (Spiral × List Tile)
  | 0, s => some (s, [])
  | n + 1, s =>
    match nextBlock s with
    | some (s', t) =>
      match runTiles n s' with
      | some (s'', ts) => some (s'', t :: ts)
      | none => none
    | none => none

/-- Membership of a pixel in a tile (offset/size rectangle). -/
def inTile (p : Int × Int) (t : Tile) : Prop :=
  t.1.1 ≤ p.1 ∧ p.1 < t.1.1 + t.2.1 ∧ t.1.2 ≤ p.2 ∧ p.2 < t.1.2 + t.2.2

instance (p t) : Decidable (inTile p t) := by unfold inTile; infer_instance

/-- The tile emitted for grid cell `q` (spiral.cpp lines 39-41). -/
def tileOf (W H bs : Nat) (ox oy : Int) (q : Int × Int) : Tile :=
  ((q.1 * bs + ox, q.2 * bs + oy),
   (min (bs : Int) ((W : Int) - q.1 * bs), min (bs : Int) ((H : Int) - q.2 * bs)))

/-! ## Hit indices: trajectory steps that land inside the block grid -/

/-- Propositional version of the in-grid test. -/
def inGrid (bX bY : Nat) (q : Int × Int) : Prop :=
  0 ≤ q.1 ∧ q.1 < (bX : Int) ∧ 0 ≤ q.2 ∧ q.2 < (bY : Int)

instance (bX bY q) : Decidable (inGrid bX bY q) := by unfold inGrid; infer_instance

/-- Indices `< m` of trajectory steps that land inside the grid. -/
def hits (bX bY m : Nat) : List Nat :=
  (List.range m).filter (fun i => inGridB bX bY (posAt (gridCenter bX bY) i))

/-- The full list of hit indices: every spiral index that ever lands in
the grid. -/
def gEnum (bX bY : Nat) : List Nat := hits bX bY (T (max bX bY) + 1)

/-- The grid cells, as a finite set of integer points. -/
def gridFinset (bX bY : Nat) : Finset (Int × Int) :=
  Finset.Ico (0 : Int) bX ×ˢ Finset.Ico (0 : Int) bY

/-- Hit indices from `n` (inclusive) onwards. -/
def Hfrom (bX bY n : Nat) : List Nat :=
  (List.range' n (T (max bX bY) + 1 - n)).filter
    (fun i => inGridB bX bY (posAt (gridCenter bX bY) i))

/-- Configuration fields of a `Spiral`, as set by the constructor for a
`W × H` raster with block size `bs` and crop offset `(ox, oy)`. -/
def cfgOK (W H bs : Nat) (ox oy : Int) (s : Spiral) : Prop :=
  s.blockSize = bs ∧ s.sizeX = W ∧ s.sizeY = H ∧ s.offX = ox ∧ s.offY = oy ∧
  s.blocksX = cdiv W bs ∧ s.blocksY = cdiv H bs ∧
  s.blockCount = cdiv W bs * cdiv H bs

/-- Mid-pass machine state: `j` tiles of the current pass emitted so far,
spiral sitting on the `(j+1)`-th in-grid trajectory cell, at trajectory
index `n`. -/
def InvMid (W H bs : Nat) (ox oy : Int) (j n : Nat) (s : Spiral) : Prop :=
  cfgOK W H bs ox oy s ∧ s.blockCounter = j ∧ j + 1 ≤ s.blockCount ∧
  s.trav = stateAt (gridCenter (cdiv W bs) (cdiv H bs)) n ∧
  inGrid (cdiv W bs) (cdiv H bs) (posAt (gridCenter (cdiv W bs) (cdiv H bs)) n) ∧
  (hits (cdiv W bs) (cdiv H bs) n).length = j

/-- States reachable by `next_block` from a fresh scheduler with a
nonempty grid: either mid-pass on a hit cell, or pass-complete. -/
def Reach (W H bs : Nat) (ox oy : Int) (s : Spiral) : Prop :=
  (∃ j n, InvMid W H bs ox oy j n s) ∨
  (cfgOK W H bs ox oy s ∧ s.blockCounter = s.blockCount)

/-! ## Reconstruction filter discretization (rfilter.cpp) -/

/-- The filter state built by `init_discretization`. -/
structure ReconstructionFilter where
  radius : Rat
  values : List Rat
  scaleFactor : Rat
  borderSize : Nat
  deriving Repr, DecidableEq

/-- `math::Epsilon` for the default single-precision build
(include/mitsuba/core/math.h line 50: `Epsilon_f = 1e-4f`). -/
def mathEpsilon : Rat := 1 / 10000

/-- `ReconstructionFilter::init_discretization` (rfilter.cpp lines 9-20):
sample `eval` at `RES+1` equally spaced abscissas `radius*i/RES`, force
the last entry to zero, set `scale_factor = RES/radius` and
`border_size = (uint32_t) ceil(radius - 0.5 - 2*eps)`.  The
`Assert(m_radius > 0)` is modelled as `none`. -/
def initDiscretization (RES : Nat) (radius : Rat) (eval : Rat → Rat) :
    Option ReconstructionFilter :=
  if 0 < radius then
    some { radius := radius
           values := (List.range RES).map (fun i : Nat => eval (radius * i / RES)) ++ [0]
           scaleFactor := (RES : Rat) / radius
           borderSize := (⌈radius - 1/2 - 2 * mathEpsilon⌉).toNat }
  else none

/-- Modelled from the spec: `ReconstructionFilter::eval_discretized`
(declared in include/mitsuba/core/rfilter.h, which is not part of this
source tree): returns `table[round(|x| * scale_factor)]`, clamped to the
table bounds. -/
def evalDiscretized (f : ReconstructionFilter) (x : Rat) : Rat :=
  f.values.getD (min (round (|x| * f.scaleFactor)).toNat (f.values.length - 1)) 0

/-! ## ImageBlock (imageblock.cpp)

The filter interface used by `put` (`m_filter->radius()` and
`m_filter->eval_discretized(x)`; the class header is not part of this
source tree) is carried as the two fields `fradius` and `evalDisc`, so
every theorem below holds for an arbitrary filter.  The flat pixel
buffer holds `bsizeX * bsizeY * channels` scalars; a write at a flat
index beyond the end of `data` models the out-of-bounds pointer write of
the C++ code (`List.modify` leaves the list unchanged there, and the
write list itself is exposed for inspection). -/

structure ImageBlock where
  offX : Int
  offY : Int
  borderSize : Nat
  bsizeX : Int
  bsizeY : Int
  channels : Nat
  warn : Bool
  fradius : Rat
  evalDisc : Rat → Rat
  data : List Rat

/-- `ImageBlock::ImageBlock` (imageblock.cpp lines 5-28): border from
the filter, bitmap of `size + 2*border` pixels, cleared to zero. -/
def mkImageBlock (sizeX sizeY : Int) (filter : Option ReconstructionFilter)
    (channels : Nat) (warn : Bool) : ImageBlock :=
  let border : Nat := match filter with
    | some f => f.borderSize
    | none => 0
  { offX := 0
    offY := 0
    borderSize := border
    bsizeX := sizeX + 2 * border
    bsizeY := sizeY + 2 * border
    channels := channels
    warn := warn
    fradius := match filter with
      | some f => f.radius
      | none => 0
    evalDisc := match filter with
      | some f => evalDiscretized f
      | none => fun _ => 0
    data := List.replicate ((sizeX + 2 * border) * (sizeY + 2 * border) * channels).toNat 0 }

/-- Validity check of one sample (imageblock.cpp lines 45-51): every
channel must be finite and nonnegative; over exact rationals the
finiteness test is vacuous, leaving the sign test. -/
def validSample (channels : Nat) (value : List Rat) : Bool :=
  (List.range channels).all (fun k => decide (0 ≤ value.getD k 0))

/-- Buffer-local coordinates (imageblock.cpp lines 70-73):
`pos - 0.5 - (offset - border_size)`. -/
def localize (blk : ImageBlock) (pos : Rat × Rat) : Rat × Rat :=
  (pos.1 - 1/2 - ((blk.offX - (blk.borderSize : Int) : Int) : Rat),
   pos.2 - 1/2 - ((blk.offY - (blk.borderSize : Int) : Int) : Rat))

/-- Footprint lower corner (imageblock.cpp lines 76-79):
`max(ceil(pos - radius), 0)` per axis. -/
def footLo (blk : ImageBlock) (p : Rat × Rat) : Int × Int :=
  (max ⌈p.1 - blk.fradius⌉ 0, max ⌈p.2 - blk.fradius⌉ 0)

/-- Footprint upper corner (imageblock.cpp lines 80-83):
`min(floor(pos + radius), size - 1)` per axis. -/
def footHi (blk : ImageBlock) (p : Rat × Rat) : Int × Int :=
  (min ⌊p.1 + blk.fradius⌋ (blk.bsizeX - 1), min ⌊p.2 + blk.fradius⌋ (blk.bsizeY - 1))

/-- The integers from `lo` to `hi` inclusive (empty when `hi < lo`). -/
def intRange (lo hi : Int) : List Int :=
  (List.range (hi + 1 - lo).toNat).map (fun t : Nat => lo + (t : Int))

/-- The scalar rasterization loop of `put` (imageblock.cpp lines
85-103), as a list of taps: for every `(y, x)` in the footprint and
channel `k`, the flat buffer index `(y*size.x + x)*channels + k`, the
separable weight `eval_discretized(x - pos.x) * eval_discretized(y -
pos.y)`, and the channel `k` whose value it scales. -/
def scalarTaps (blk : ImageBlock) (p : Rat × Rat) : List (Nat × Rat × Nat) :=
  (intRange (footLo blk p).2 (footHi blk p).2).flatMap (fun y =>
    (intRange (footLo blk p).1 (footHi blk p).1).flatMap (fun x =>
      (List.range blk.channels).map (fun k =>
        (((y * blk.bsizeX + x) * (blk.channels : Int) + ((k : Nat) : Int)).toNat,
         blk.evalDisc ((x : Rat) - p.1) * blk.evalDisc ((y : Rat) - p.2), k))))

/-- The same loop as additive writes `index ↦ weight * value[k]`
(imageblock.cpp lines 100-101). -/
def scalarWrites (blk : ImageBlock) (p : Rat × Rat) (value : List Rat) :
    List (Nat × Rat) :=
  (scalarTaps blk p).map (fun t => (t.1, t.2.1 * value.getD t.2.2 0))

/-- Apply a list of additive writes to the flat buffer in order. -/
def applyWrites (data : List Rat) (ws : List (Nat × Rat)) : List Rat :=
  ws.foldl (fun d iv => d.modify (fun t => t + iv.2) iv.1) data

/-- The scalar `ImageBlock::put` (imageblock.cpp lines 39-105): reject
the whole sample when `m_warn` is set and some channel is invalid
(returning `false` and leaving the buffer untouched), otherwise splat it
and return `true`. -/
def putScalar (blk : ImageBlock) (pos : Rat × Rat) (value : List Rat) :
    ImageBlock × Bool :=
  if blk.warn ∧ ¬ validSample blk.channels value then (blk, false)
  else
    ({ blk with
        data := applyWrites blk.data (scalarWrites blk (localize blk pos) value) },
     true)

/-! ### Vectorized put (imageblock.cpp lines 107-207)

A packet is a list indexed by lane; `vals` is indexed channel-first like
the `FloatP *value` argument. -/

/-- Per-lane validity of the packet (imageblock.cpp lines 115-121):
`is_valid &= ~active | (isfinite(value[k]) & (value[k] >= 0))` — an
inactive lane is counted valid. -/
def laneValid (channels : Nat) (vals : List (List Rat)) (j : Nat) : Bool :=
  (List.range channels).all (fun k => decide (0 ≤ (vals.getD k []).getD j 0))

/-- The `is_valid` mask (imageblock.cpp lines 115-121), all-true when
`m_warn` is unset. -/
def isValidMask (blk : ImageBlock) (active : List Bool) (vals : List (List Rat)) :
    List Bool :=
  if blk.warn then
    (List.range active.length).map (fun j => (! active.getD j false) || laneValid blk.channels vals j)
  else List.replicate active.length true

/-- Localized coordinates of lane `j`. -/
def laneP (blk : ImageBlock) (posL : List (Rat × Rat)) (j : Nat) : Rat × Rat :=
  localize blk (posL.getD j (0, 0))

/-- Footprint lower corner of lane `j`. -/
def laneLo (blk : ImageBlock) (posL : List (Rat × Rat)) (j : Nat) : Int × Int :=
  footLo blk (laneP blk posL j)

/-- Clamped per-lane window sizes `max(hi - lo, 0)`
(imageblock.cpp line 157). -/
def laneWin (blk : ImageBlock) (posL : List (Rat × Rat)) (j : Nat) : Int × Int :=
  (max ((footHi blk (laneP blk posL j)).1 - (laneLo blk posL j).1) 0,
   max ((footHi blk (laneP blk posL j)).2 - (laneLo blk posL j).2) 0)

/-- `max_size = (hmax(window_sizes.x()), hmax(window_sizes.y()))`
(imageblock.cpp lines 158-161), a horizontal maximum over every lane of
the packet. -/
def maxSizes (blk : ImageBlock) (posL : List (Rat × Rat)) (lanes : Nat) : Int × Int :=
  ((List.range lanes).foldl (fun acc j => max acc (laneWin blk posL j).1) 0,
   (List.range lanes).foldl (fun acc j => max acc (laneWin blk posL j).2) 0)

/-- The per-tap lane mask (imageblock.cpp lines 174-178):
`active & is_valid & (yr <= window.y) & (xr <= window.x)`. -/
def laneEnabled (blk : ImageBlock) (posL : List (Rat × Rat))
    (vals : List (List Rat)) (active : List Bool) (j yr xr : Nat) : Bool :=
  active.getD j false && (isValidMask blk active vals).getD j true &&
    decide ((yr : Int) ≤ (laneWin blk posL j).2) &&
    decide ((xr : Int) ≤ (laneWin blk posL j).1)

/-- Flat buffer index scattered to by lane `j` at tap `(yr, xr)` and
channel `k`: `channels * ((lo.y + yr) * size.x + (lo.x + xr)) + k`
(imageblock.cpp lines 181-182 and 191). -/
def vecIdx (blk : ImageBlock) (posL : List (Rat × Rat)) (j yr xr k : Nat) : Nat :=
  ((blk.channels : Int) * (((laneLo blk posL j).2 + yr) * blk.bsizeX +
    ((laneLo blk posL j).1 + xr)) + k).toNat

/-- Separable weight of lane `j` at tap `(yr, xr)`:
`eval_discretized(corner.y + yr) * eval_discretized(corner.x + xr)` with
`corner = lo - pos` (imageblock.cpp lines 163-167 and 183). -/
def vecWeight (blk : ImageBlock) (posL : List (Rat × Rat)) (j yr xr : Nat) : Rat :=
  blk.evalDisc (((laneLo blk posL j).2 : Rat) - (laneP blk posL j).2 + yr) *
    blk.evalDisc (((laneLo blk posL j).1 : Rat) - (laneP blk posL j).1 + xr)

/-- The amount lane `j` adds at tap `(yr, xr)`, channel `k`:
`weight * value[k]` (imageblock.cpp line 198). -/
def vecDelta (blk : ImageBlock) (posL : List (Rat × Rat))
    (vals : List (List Rat)) (j yr xr k : Nat) : Rat :=
  vecWeight blk posL j yr xr * ((vals.getD k []).getD j 0)

/-- The scatter-add writes issued by the vectorized rasterization loops
(imageblock.cpp lines 170-204): outer loops over `yr`, `xr`, `k`, inner
`enoki::transform` over the lanes of the packet.  `transform` is the
conflict-safe scatter of the enoki library (not part of this source
tree); per its documentation it applies the operation for every active
lane, so lanes are laid out innermost and in order here. -/
def vectorWrites (blk : ImageBlock) (posL : List (Rat × Rat))
    (vals : List (List Rat)) (active : List Bool) : List (Nat × Rat) :=
  (List.range ((maxSizes blk posL active.length).2.toNat + 1)).flatMap (fun yr =>
    (List.range ((maxSizes blk posL active.length).1.toNat + 1)).flatMap (fun xr =>
      (List.range blk.channels).flatMap (fun k =>
        (List.range active.length).filterMap (fun j =>
          if laneEnabled blk posL vals active j yr xr then
            some (vecIdx blk posL j yr xr k, vecDelta blk posL vals j yr xr k)
          else none))))

/-- The vectorized `ImageBlock::put` (imageblock.cpp lines 107-207):
compute the validity mask, return early when no lane is valid, otherwise
scatter-add every enabled tap; the returned mask is `is_valid`. -/
def putVector (blk : ImageBlock) (posL : List (Rat × Rat))
    (vals : List (List Rat)) (active : List Bool) : ImageBlock × List Bool :=
  let valid := isValidMask blk active vals
  if blk.warn ∧ valid.all (fun b => ! b) then (blk, valid)
  else
    ({ blk with data := applyWrites blk.data (vectorWrites blk posL vals active) },
     valid)

/-! ### Per-lane accumulation totals for the vectorized put -/

/-- Total amount lane `j` adds to flat buffer index `i` during one
vectorized put: the sum of its enabled taps that scatter to `i`. -/
def laneContrib (blk : ImageBlock) (posL : List (Rat × Rat)) (vals : List (List Rat))
    (active : List Bool) (j i : Nat) : Rat :=
  Finset.sum (Finset.range ((maxSizes blk posL active.length).2.toNat + 1)) (fun yr =>
    Finset.sum (Finset.range ((maxSizes blk posL active.length).1.toNat + 1)) (fun xr =>
      Finset.sum (Finset.range blk.channels) (fun k =>
        if laneEnabled blk posL vals active j yr xr = true ∧ vecIdx blk posL j yr xr k = i
        then vecDelta blk posL vals j yr xr k else 0)))

/-! ### Concrete test fixtures -/

/-- A bare `ImageBlock` over a `w × h × ch` buffer with no border, a
radius-1 filter whose discretized lookup is constantly 1, cleared to
zero. -/
def constOneBlock (w h ch : Nat) (warn : Bool) : ImageBlock :=
  { offX := 0
    offY := 0
    borderSize := 0
    bsizeX := (w : Int)
    bsizeY := (h : Int)
    channels := ch
    warn := warn
    fradius := 1
    evalDisc := fun _ => 1
    data := List.replicate (w * h * ch) 0 }

/-- The ten results of `next_block` for a 65×65 image with 32-pixel
blocks and one pass: nine spiral tiles followed by the terminal
sentinel. -/
def c4Tiles : List Tile :=
  [((32, 32), (32, 32)), ((64, 32), (1, 32)), ((64, 64), (1, 1)), ((32, 64), (32, 1)),
   ((0, 64), (32, 1)), ((0, 32), (32, 32)), ((0, 0), (32, 32)), ((32, 0), (32, 32)),
   ((64, 0), (1, 32)), ((0, 0), (0, 0))]

/-! ### Straight-run lemmas for the advance loop -/

theorem advance_pos_run (p : Int × Int) (d : Nat) (s : Nat) :
    ∀ j m, j ≤ m →
      (advance^[j] ⟨p, d, m, s⟩).pos =
        (p.1 + j * (dirVec d).1, p.2 + j * (dirVec d).2) := by
  intro j
  induction j generalizing p with
  | zero => intro m _; simp [Function.iterate_zero]
  | succ i ih =>
    intro m hm
    rw [Function.iterate_succ_apply]
    by_cases h1 : m = 1
    · subst h1
      have hi : i = 0 := by omega
      subst hi
      simp [advance, Function.iterate_one]
    · have hm2 : 2 ≤ m := by omega
      have : advance ⟨p, d, m, s⟩ =
          ⟨(p.1 + (dirVec d).1, p.2 + (dirVec d).2), d, m - 1, s⟩ := by
        unfold advance
        simp only []
        rw [if_neg h1]
      rw [this, ih _ (m - 1) (by omega)]
      simp only [Prod.mk.injEq]
      constructor <;> push_cast <;> ring

theorem advance_state_run (p : Int × Int) (d : Nat) (s : Nat) :
    ∀ j m, j < m →
      advance^[j] ⟨p, d, m, s⟩ =
        ⟨(p.1 + j * (dirVec d).1, p.2 + j * (dirVec d).2), d, m - j, s⟩ := by
  intro j
  induction j generalizing p with
  | zero => intro m _; simp [Function.iterate_zero]
  | succ i ih =>
    intro m hm
    rw [Function.iterate_succ_apply]
    have h1 : m ≠ 1 := by omega
    have : advance ⟨p, d, m, s⟩ =
        ⟨(p.1 + (dirVec d).1, p.2 + (dirVec d).2), d, m - 1, s⟩ := by
      unfold advance
      simp only []
      rw [if_neg h1]
    rw [this, ih _ (m - 1) (by omega)]
    refine congrArg₂ (fun a b => TravState.mk a d b s) ?_ (by omega)
    simp only [Prod.mk.injEq]
    constructor <;> push_cast <;> ring

/-- A full straight run of length `m ≥ 1` ends in a rotation. -/
theorem advance_full_run (p : Int × Int) (d : Nat) (s m : Nat) (hm : 1 ≤ m) :
    advance^[m] ⟨p, d, m, s⟩ =
      ⟨(p.1 + m * (dirVec d).1, p.2 + m * (dirVec d).2), (d + 1) % 4,
       (if (d + 1) % 4 = 2 ∨ (d + 1) % 4 = 0 then s + 1 else s),
       (if (d + 1) % 4 = 2 ∨ (d + 1) % 4 = 0 then s + 1 else s)⟩ := by
  obtain ⟨n, rfl⟩ : ∃ n, m = n + 1 := ⟨m - 1, by omega⟩
  rw [Function.iterate_succ_apply']
  rw [advance_state_run p d s n (n + 1) (by omega)]
  have hleft : n + 1 - n = 1 := by omega
  rw [hleft]
  unfold advance
  simp only [if_pos rfl]
  refine congrArg₂ (fun a b => TravState.mk a ((d + 1) % 4) b _) ?_ rfl
  simp only [Prod.mk.injEq]
  constructor <;> push_cast <;> ring

theorem stateAt_add (c : Int × Int) (m n : Nat) :
    stateAt c (m + n) = advance^[m] (stateAt c n) :=
  Function.iterate_add_apply _ _ _ _

/-! ### The five straight runs that traverse ring `k+1` -/

theorem chainA (c : Int × Int) (k : Nat) :
    advance^[1] (ckpt c k) =
      ⟨(c.1 + k + 1, c.2 - k), 1, 2 * k + 1, 2 * k + 1⟩ := by
  rw [ckpt, advance_full_run _ _ _ 1 le_rfl]
  norm_num [dirVec]

theorem chainB (c : Int × Int) (k : Nat) :
    advance^[2 * k + 1] (⟨(c.1 + k + 1, c.2 - k), 1, 2 * k + 1, 2 * k + 1⟩ : TravState) =
      ⟨(c.1 + k + 1, c.2 + k + 1), 2, 2 * k + 2, 2 * k + 2⟩ := by
  rw [advance_full_run _ _ _ _ (by omega)]
  simp only [dirVec, TravState.mk.injEq, Prod.mk.injEq]
  norm_num
  repeat' apply And.intro
  all_goals omega

theorem chainC (c : Int × Int) (k : Nat) :
    advance^[2 * k + 2] (⟨(c.1 + k + 1, c.2 + k + 1), 2, 2 * k + 2, 2 * k + 2⟩ : TravState) =
      ⟨(c.1 - (k + 1), c.2 + k + 1), 3, 2 * k + 2, 2 * k + 2⟩ := by
  rw [advance_full_run _ _ _ _ (by omega)]
  simp only [dirVec, TravState.mk.injEq, Prod.mk.injEq]
  norm_num
  repeat' apply And.intro
  all_goals omega

theorem chainD (c : Int × Int) (k : Nat) :
    advance^[2 * k + 2] (⟨(c.1 - (k + 1), c.2 + k + 1), 3, 2 * k + 2, 2 * k + 2⟩ : TravState) =
      ⟨(c.1 - (k + 1), c.2 - (k + 1)), 0, 2 * k + 3, 2 * k + 3⟩ := by
  rw [advance_full_run _ _ _ _ (by omega)]
  simp only [dirVec, TravState.mk.injEq, Prod.mk.injEq]
  norm_num
  repeat' apply And.intro
  all_goals omega

theorem chainE (c : Int × Int) (k : Nat) :
    advance^[2 * k + 2] (⟨(c.1 - (k + 1), c.2 - (k + 1)), 0, 2 * k + 3, 2 * k + 3⟩ : TravState) =
      ckpt c (k + 1) := by
  rw [advance_state_run _ _ _ _ _ (by omega)]
  unfold ckpt
  simp only [dirVec, TravState.mk.injEq, Prod.mk.injEq]
  norm_num
  repeat' apply And.intro
  all_goals omega

theorem T_succ (k : Nat) :
    T (k + 1) = (2 * k + 2) + ((2 * k + 2) + ((2 * k + 2) + ((2 * k + 1) + (1 + T k)))) := by
  unfold T; ring

/-- The traversal state at iteration `T k` is the ring-`k` checkpoint. -/
theorem ckpt_at (c : Int × Int) : ∀ k, stateAt c (T k) = ckpt c k := by
  intro k
  induction k with
  | zero =>
    show stateAt c 0 = _
    simp [stateAt, travInit, ckpt]
  | succ k ih =>
    rw [T_succ, stateAt_add, stateAt_add, stateAt_add, stateAt_add, stateAt_add, ih,
        chainA, chainB, chainC, chainD, chainE]

theorem st1 (c : Int × Int) (k : Nat) :
    stateAt c (1 + T k) = ⟨(c.1 + k + 1, c.2 - k), 1, 2 * k + 1, 2 * k + 1⟩ := by
  rw [stateAt_add, ckpt_at, chainA]

theorem st2 (c : Int × Int) (k : Nat) :
    stateAt c ((2 * k + 1) + (1 + T k)) =
      ⟨(c.1 + k + 1, c.2 + k + 1), 2, 2 * k + 2, 2 * k + 2⟩ := by
  rw [stateAt_add, st1, chainB]

theorem st3 (c : Int × Int) (k : Nat) :
    stateAt c ((2 * k + 2) + ((2 * k + 1) + (1 + T k))) =
      ⟨(c.1 - (k + 1), c.2 + k + 1), 3, 2 * k + 2, 2 * k + 2⟩ := by
  rw [stateAt_add, st2, chainC]

theorem st4 (c : Int × Int) (k : Nat) :
    stateAt c ((2 * k + 2) + ((2 * k + 2) + ((2 * k + 1) + (1 + T k)))) =
      ⟨(c.1 - (k + 1), c.2 - (k + 1)), 0, 2 * k + 3, 2 * k + 3⟩ := by
  rw [stateAt_add, st3, chainD]

/-- Position of the `j`-th cell of ring `k+1` along the trajectory. -/
theorem posAt_ring (c : Int × Int) (k j : Nat) (hj : j < 8 * k + 8) :
    posAt c (T k + 1 + j) = (c.1 + (ringPos k j).1, c.2 + (ringPos k j).2) := by
  unfold posAt
  by_cases h1 : j ≤ 2 * k + 1
  · have hidx : T k + 1 + j = j + (1 + T k) := by omega
    rw [hidx, stateAt_add, st1, advance_pos_run _ _ _ _ _ h1]
    rw [ringPos, if_pos h1]
    simp only [dirVec, Prod.mk.injEq]
    norm_num
    repeat' apply And.intro
    all_goals omega
  · by_cases h2 : j ≤ 4 * k + 3
    · obtain ⟨i, rfl⟩ : ∃ i, j = (2 * k + 2) + i := ⟨j - (2 * k + 2), by omega⟩
      have hidx : T k + 1 + ((2 * k + 2) + i) = (i + 1) + ((2 * k + 1) + (1 + T k)) := by omega
      rw [hidx, stateAt_add, st2, advance_pos_run _ _ _ _ _ (by omega)]
      rw [ringPos, if_neg h1, if_pos h2]
      simp only [dirVec, Prod.mk.injEq]
      norm_num
      repeat' apply And.intro
      all_goals omega
    · by_cases h3 : j ≤ 6 * k + 5
      · obtain ⟨i, rfl⟩ : ∃ i, j = (4 * k + 4) + i := ⟨j - (4 * k + 4), by omega⟩
        have hidx : T k + 1 + ((4 * k + 4) + i) =
            (i + 1) + ((2 * k + 2) + ((2 * k + 1) + (1 + T k))) := by omega
        rw [hidx, stateAt_add, st3, advance_pos_run _ _ _ _ _ (by omega)]
        rw [ringPos, if_neg h1, if_neg h2, if_pos h3]
        simp only [dirVec, Prod.mk.injEq]
        norm_num
        repeat' apply And.intro
        all_goals omega
      · obtain ⟨i, rfl⟩ : ∃ i, j = (6 * k + 6) + i := ⟨j - (6 * k + 6), by omega⟩
        have hidx : T k + 1 + ((6 * k + 6) + i) =
            (i + 1) + ((2 * k + 2) + ((2 * k + 2) + ((2 * k + 1) + (1 + T k)))) := by omega
        rw [hidx, stateAt_add, st4, advance_pos_run _ _ _ _ _ (by omega)]
        rw [ringPos, if_neg h1, if_neg h2, if_neg h3]
        simp only [dirVec, Prod.mk.injEq]
        norm_num
        repeat' apply And.intro
        all_goals omega

/-! ### Set-level facts about ring cells -/

theorem ringPos_mem (c : Int × Int) (k j : Nat) (hj : j < 8 * k + 8) :
    inSq c (k + 1) (c.1 + (ringPos k j).1, c.2 + (ringPos k j).2) ∧
      ¬ inSq c k (c.1 + (ringPos k j).1, c.2 + (ringPos k j).2) := by
  unfold inSq ringPos
  split_ifs <;> simp only [] <;> push_cast <;> omega

theorem ringPos_inj (k : Nat) :
    ∀ j j', j < 8 * k + 8 → j' < 8 * k + 8 → ringPos k j = ringPos k j' → j = j' := by
  intro j j' hj hj' h
  unfold ringPos at h
  split_ifs at h <;> simp only [Prod.mk.injEq] at h <;> omega

theorem ringPos_cover (c : Int × Int) (k : Nat) (q : Int × Int)
    (h1 : inSq c (k + 1) q) (h2 : ¬ inSq c k q) :
    ∃ j, j < 8 * k + 8 ∧ (c.1 + (ringPos k j).1, c.2 + (ringPos k j).2) = q := by
  unfold inSq at h1 h2
  push_neg at h2
  by_cases hS : q.2 = c.2 - (k + 1) ∧ c.1 - k ≤ q.1
  · -- south row
    refine ⟨6 * k + 6 + (q.1 - (c.1 - k)).toNat, by omega, ?_⟩
    unfold ringPos
    rw [if_neg (by omega), if_neg (by omega), if_neg (by omega)]
    rw [Prod.ext_iff]
    constructor <;> simp only [] <;> push_cast <;> omega
  · by_cases hE : q.1 = c.1 + (k + 1)
    · -- east column
      refine ⟨(q.2 - (c.2 - k)).toNat, ?_, ?_⟩
      · omega
      · unfold ringPos
        rw [if_pos (by omega)]
        rw [Prod.ext_iff]
        constructor <;> simp only [] <;> push_cast <;> omega
    · by_cases hN : q.2 = c.2 + (k + 1)
      · -- north row
        refine ⟨2 * k + 2 + (c.1 + k - q.1).toNat, ?_, ?_⟩
        · omega
        · unfold ringPos
          rw [if_neg (by omega), if_pos (by omega)]
          rw [Prod.ext_iff]
          constructor <;> simp only [] <;> push_cast <;> omega
      · -- west column
        refine ⟨4 * k + 4 + (c.2 + k - q.2).toNat, ?_, ?_⟩
        · omega
        · unfold ringPos
          rw [if_neg (by omega), if_neg (by omega), if_pos (by omega)]
          rw [Prod.ext_iff]
          constructor <;> simp only [] <;> push_cast <;> omega

theorem inSq_mono (c : Int × Int) (k : Nat) (q : Int × Int) (h : inSq c k q) :
    inSq c (k + 1) q := by
  unfold inSq at h ⊢; push_cast; omega

theorem T_mono (k : Nat) : T k ≤ T (k + 1) := by
  unfold T; nlinarith

/-- Combined coverage, confinement and injectivity of the spiral prefix
that finishes ring `k`: the first `(2k+1)^2` cells of the trajectory are
exactly the Chebyshev square of radius `k`, each visited once. -/
theorem spiral_rings (c : Int × Int) :
    ∀ k, (∀ n, n ≤ T k → inSq c k (posAt c n)) ∧
      (∀ q, inSq c k q → ∃ n, n ≤ T k ∧ posAt c n = q) ∧
      (∀ m n, m ≤ T k → n ≤ T k → posAt c m = posAt c n → m = n) := by
  intro k
  induction k with
  | zero =>
    have hT : T 0 = 0 := by unfold T; ring
    have hpos : posAt c 0 = c := by
      simp [posAt, stateAt, travInit]
    refine ⟨?_, ?_, ?_⟩
    · intro n hn
      rw [hT] at hn
      interval_cases n
      rw [hpos]
      unfold inSq
      push_cast
      omega
    · intro q hq
      refine ⟨0, by omega, ?_⟩
      rw [hpos]
      unfold inSq at hq
      push_cast at hq
      have h1 : q.1 = c.1 := by omega
      have h2 : q.2 = c.2 := by omega
      exact (Prod.ext_iff.mpr ⟨h1, h2⟩).symm
    · intro m n hm hn _
      rw [hT] at hm hn
      omega
  | succ k ih =>
    obtain ⟨ihIn, ihCov, ihInj⟩ := ih
    have hTs : T (k + 1) = T k + (8 * k + 8) := by unfold T; ring
    refine ⟨?_, ?_, ?_⟩
    · intro n hn
      by_cases hnk : n ≤ T k
      · exact inSq_mono _ _ _ (ihIn n hnk)
      · obtain ⟨j, hjlt, rfl⟩ : ∃ j, j < 8 * k + 8 ∧ n = T k + 1 + j :=
          ⟨n - T k - 1, by omega, by omega⟩
        rw [posAt_ring c k j hjlt]
        exact (ringPos_mem c k j hjlt).1
    · intro q hq
      by_cases hqk : inSq c k q
      · obtain ⟨n, hn, hpn⟩ := ihCov q hqk
        exact ⟨n, by omega, hpn⟩
      · obtain ⟨j, hjlt, hpj⟩ := ringPos_cover c k q hq hqk
        exact ⟨T k + 1 + j, by omega, by rw [posAt_ring c k j hjlt]; exact hpj⟩
    · intro m n hm hn heq
      by_cases hmk : m ≤ T k
      · by_cases hnk : n ≤ T k
        · exact ihInj m n hmk hnk heq
        · exfalso
          obtain ⟨j, hjlt, rfl⟩ : ∃ j, j < 8 * k + 8 ∧ n = T k + 1 + j :=
            ⟨n - T k - 1, by omega, by omega⟩
          have h1 := ihIn m hmk
          rw [heq, posAt_ring c k j hjlt] at h1
          exact (ringPos_mem c k j hjlt).2 h1
      · by_cases hnk : n ≤ T k
        · exfalso
          obtain ⟨j, hjlt, rfl⟩ : ∃ j, j < 8 * k + 8 ∧ m = T k + 1 + j :=
            ⟨m - T k - 1, by omega, by omega⟩
          have h1 := ihIn n hnk
          rw [← heq, posAt_ring c k j hjlt] at h1
          exact (ringPos_mem c k j hjlt).2 h1
        · obtain ⟨j, hjlt, rfl⟩ : ∃ j, j < 8 * k + 8 ∧ m = T k + 1 + j :=
            ⟨m - T k - 1, by omega, by omega⟩
          obtain ⟨j', hjlt', rfl⟩ : ∃ j', j' < 8 * k + 8 ∧ n = T k + 1 + j' :=
            ⟨n - T k - 1, by omega, by omega⟩
          rw [posAt_ring c k j hjlt, posAt_ring c k j' hjlt'] at heq
          simp only [Prod.mk.injEq] at heq
          have : ringPos k j = ringPos k j' := by
            rw [Prod.ext_iff]
            exact ⟨by omega, by omega⟩
          have := ringPos_inj k j j' hjlt hjlt' this
          omega

/-- Global injectivity of the spiral trajectory: no cell is ever
visited twice. -/
theorem posAt_injective (c : Int × Int) :
    ∀ m n, posAt c m = posAt c n → m = n := by
  intro m n h
  have hT : ∀ i : Nat, i ≤ T i := by
    intro i; unfold T; nlinarith
  rcases le_total m n with hle | hle
  · exact (spiral_rings c n).2.2 m n (le_trans hle (hT n)) (hT n) h
  · exact (spiral_rings c m).2.2 m n (hT m) (le_trans hle (hT m)) h

theorem inGridB_iff (bX bY : Nat) (q : Int × Int) :
    inGridB bX bY q = true ↔ inGrid bX bY q := by
  unfold inGridB inGrid
  simp [and_assoc]

theorem mem_hits (bX bY m i : Nat) :
    i ∈ hits bX bY m ↔ i < m ∧ inGrid bX bY (posAt (gridCenter bX bY) i) := by
  unfold hits
  rw [List.mem_filter, List.mem_range, inGridB_iff]

theorem hits_nodup (bX bY m : Nat) : (hits bX bY m).Nodup :=
  (List.nodup_range m).filter _

/-- The block grid is contained in the Chebyshev square of radius
`max bX bY` around the spiral center. -/
theorem grid_sub_sq (bX bY : Nat) (q : Int × Int) (h : inGrid bX bY q) :
    inSq (gridCenter bX bY) (max bX bY) q := by
  unfold inGrid at h
  unfold inSq gridCenter
  simp only []
  omega

/-- Any in-grid trajectory index lies within the prefix that covers the
enclosing square. -/
theorem hitIdx_le (bX bY i : Nat)
    (h : inGrid bX bY (posAt (gridCenter bX bY) i)) : i ≤ T (max bX bY) := by
  set c := gridCenter bX bY
  obtain ⟨n, hn, hpn⟩ :=
    (spiral_rings c (max bX bY)).2.1 _ (grid_sub_sq bX bY _ h)
  have := posAt_injective c n i hpn
  omega

theorem mem_gEnum (bX bY i : Nat) :
    i ∈ gEnum bX bY ↔ inGrid bX bY (posAt (gridCenter bX bY) i) := by
  rw [gEnum, mem_hits]
  constructor
  · exact fun h => h.2
  · intro h
    exact ⟨by have := hitIdx_le bX bY i h; omega, h⟩

theorem mem_gridFinset (bX bY : Nat) (q : Int × Int) :
    q ∈ gridFinset bX bY ↔ inGrid bX bY q := by
  unfold gridFinset inGrid
  rw [Finset.mem_product, Finset.mem_Ico, Finset.mem_Ico]
  tauto

/-- The spiral visits each grid cell exactly once: mapping hit indices
to their cells enumerates the grid without repetition. -/
theorem gEnum_map_nodup (bX bY : Nat) :
    ((gEnum bX bY).map (posAt (gridCenter bX bY))).Nodup :=
  (hits_nodup bX bY _).map (fun _ _ h => posAt_injective _ _ _ h)

theorem gEnum_map_mem (bX bY : Nat) (q : Int × Int) :
    q ∈ (gEnum bX bY).map (posAt (gridCenter bX bY)) ↔ inGrid bX bY q := by
  rw [List.mem_map]
  constructor
  · rintro ⟨i, hi, rfl⟩
    exact (mem_gEnum bX bY i).1 hi
  · intro hq
    obtain ⟨n, _, hpn⟩ :=
      (spiral_rings (gridCenter bX bY) (max bX bY)).2.1 q (grid_sub_sq bX bY q hq)
    refine ⟨n, ?_, hpn⟩
    rw [mem_gEnum, hpn]
    exact hq

theorem gEnum_length (bX bY : Nat) : (gEnum bX bY).length = bX * bY := by
  have hnd := gEnum_map_nodup bX bY
  have hset : ((gEnum bX bY).map (posAt (gridCenter bX bY))).toFinset = gridFinset bX bY := by
    ext q
    rw [List.mem_toFinset, gEnum_map_mem, mem_gridFinset]
  have hcard := List.toFinset_card_of_nodup hnd
  rw [hset] at hcard
  have hgc : (gridFinset bX bY).card = bX * bY := by
    unfold gridFinset
    rw [Finset.card_product, Int.card_Ico, Int.card_Ico]
    simp
  rw [List.length_map] at hcard
  omega

theorem gEnum_split (bX bY n : Nat) (hn : n ≤ T (max bX bY) + 1) :
    gEnum bX bY = hits bX bY n ++ Hfrom bX bY n := by
  unfold gEnum hits Hfrom
  rw [← List.filter_append]
  congr 1
  have h0 : (0 : Nat) + 1 * n = n := by omega
  have h1 : (T (max bX bY) + 1 - n) + n = T (max bX bY) + 1 := by omega
  have h2 := List.range'_append 0 n (T (max bX bY) + 1 - n) 1
  rw [h0, h1] at h2
  rw [List.range_eq_range', List.range_eq_range', ← h2]

theorem hits_snoc_hit (bX bY n : Nat)
    (h : inGrid bX bY (posAt (gridCenter bX bY) n)) :
    hits bX bY (n + 1) = hits bX bY n ++ [n] := by
  unfold hits
  rw [List.range_succ, List.filter_append]
  congr 1
  simp [inGridB_iff, h]

theorem Hfrom_cons_of_hit (bX bY n : Nat) (hn : n ≤ T (max bX bY))
    (h : inGrid bX bY (posAt (gridCenter bX bY) n)) :
    Hfrom bX bY n = n :: Hfrom bX bY (n + 1) := by
  unfold Hfrom
  have h1 : T (max bX bY) + 1 - n = (T (max bX bY) - n) + 1 := by omega
  have h2 : T (max bX bY) + 1 - (n + 1) = T (max bX bY) - n := by omega
  rw [h1, h2, List.range'_succ]
  rw [List.filter_cons]
  simp only [inGridB_iff]
  rw [if_pos (by simpa using h)]

theorem Hfrom_skip (bX bY n : Nat)
    (h : ¬ inGrid bX bY (posAt (gridCenter bX bY) n)) :
    Hfrom bX bY n = Hfrom bX bY (n + 1) := by
  by_cases hn : n ≤ T (max bX bY)
  · unfold Hfrom
    have h1 : T (max bX bY) + 1 - n = (T (max bX bY) - n) + 1 := by omega
    have h2 : T (max bX bY) + 1 - (n + 1) = T (max bX bY) - n := by omega
    rw [h1, h2, List.range'_succ]
    rw [List.filter_cons]
    simp only [inGridB_iff]
    rw [if_neg (by simpa using h)]
  · unfold Hfrom
    have h1 : T (max bX bY) + 1 - n = 0 := by omega
    have h2 : T (max bX bY) + 1 - (n + 1) = 0 := by omega
    rw [h1, h2]
    simp

theorem Hfrom_of_gap (bX bY : Nat) :
    ∀ d n, (∀ i, n ≤ i → i < n + d → ¬ inGrid bX bY (posAt (gridCenter bX bY) i)) →
      Hfrom bX bY n = Hfrom bX bY (n + d) := by
  intro d
  induction d with
  | zero => intro n _; rfl
  | succ d ih =>
    intro n hgap
    rw [Hfrom_skip bX bY n (hgap n le_rfl (by omega))]
    have := ih (n + 1) (fun i h1 h2 => hgap i (by omega) (by omega))
    rw [this]
    congr 1
    omega

/-- Under the total-count bound, a strictly later hit exists whenever the
hits so far have not exhausted the grid; `n'` is the least one. -/
theorem next_hit (bX bY n : Nat)
    (hhit : inGrid bX bY (posAt (gridCenter bX bY) n))
    (hlen : (hits bX bY (n + 1)).length < bX * bY) :
    ∃ n', n < n' ∧ inGrid bX bY (posAt (gridCenter bX bY) n') ∧
      (∀ i, n < i → i < n' → ¬ inGrid bX bY (posAt (gridCenter bX bY) i)) ∧
      n' ≤ T (max bX bY) := by
  have hnT : n ≤ T (max bX bY) := hitIdx_le bX bY n hhit
  have hex : ∃ i, n < i ∧ inGrid bX bY (posAt (gridCenter bX bY) i) := by
    by_contra hno
    push_neg at hno
    have hempty : Hfrom bX bY (n + 1) = [] := by
      unfold Hfrom
      rw [List.filter_eq_nil_iff]
      intro a ha
      rw [List.mem_range'_1] at ha
      simp only [inGridB_iff]
      simpa using hno a (by omega)
    have hsplit := gEnum_split bX bY (n + 1) (by omega)
    rw [hempty, List.append_nil] at hsplit
    have := gEnum_length bX bY
    rw [hsplit] at this
    omega
  classical
  let P : Nat → Prop := fun i => n < i ∧ inGrid bX bY (posAt (gridCenter bX bY) i)
  have hP : ∃ i, P i := hex
  refine ⟨Nat.find hP, (Nat.find_spec hP).1, (Nat.find_spec hP).2, ?_, ?_⟩
  · intro i hi1 hi2 hig
    exact absurd ⟨hi1, hig⟩ (Nat.find_min hP hi2)
  · exact hitIdx_le bX bY _ (Nat.find_spec hP).2

/-- The do-while loop, given the least later hit index, stops exactly
there. -/
theorem loopAdv_reach (bX bY : Nat) :
    ∀ f n n', n < n' →
      inGrid bX bY (posAt (gridCenter bX bY) n') →
      (∀ i, n < i → i < n' → ¬ inGrid bX bY (posAt (gridCenter bX bY) i)) →
      n' - n ≤ f →
      loopAdv bX bY f (stateAt (gridCenter bX bY) n) =
        some (stateAt (gridCenter bX bY) n') := by
  intro f
  induction f with
  | zero => intro n n' h1 _ _ h4; omega
  | succ f ih =>
    intro n n' h1 h2 h3 h4
    rw [loopAdv]
    have hadv : advance (stateAt (gridCenter bX bY) n) = stateAt (gridCenter bX bY) (n + 1) := by
      rw [stateAt, stateAt]
      exact (Function.iterate_succ_apply' advance n _).symm
    simp only [hadv]
    by_cases hg : inGridB bX bY (stateAt (gridCenter bX bY) (n + 1)).pos
    · rw [if_pos hg]
      have : n' = n + 1 := by
        by_contra hne
        exact h3 (n + 1) (by omega) (by omega) ((inGridB_iff _ _ _).1 hg)
      rw [this]
    · rw [if_neg hg]
      have hne : n' ≠ n + 1 := by
        intro h
        apply hg
        rw [inGridB_iff]
        rw [← h]
        exact h2
      exact ih (n + 1) n' (by omega) h2 (fun i a b => h3 i (by omega) b) (by omega)

/-! ## Tile geometry -/

theorem cdiv_cell_mul_lt (bs W a : Nat) (hbs : 0 < bs) (ha : a < cdiv W bs) :
    a * bs < W := by
  have hW : 1 ≤ W := by
    by_contra h
    have hW0 : W = 0 := by omega
    subst hW0
    have : cdiv 0 bs = 0 := by
      unfold cdiv
      exact Nat.div_eq_of_lt (by omega)
    omega
  have h2 : (a + 1) * bs ≤ cdiv W bs * bs := Nat.mul_le_mul_right bs ha
  have h3 : cdiv W bs * bs ≤ W + bs - 1 := by
    unfold cdiv
    exact Nat.div_mul_le_self _ _
  have h4 : (a + 1) * bs = a * bs + bs := by ring
  omega

theorem tile_size_pos (bs W : Nat) (hbs : 0 < bs) (q : Int)
    (h0 : 0 ≤ q) (h1 : q < (cdiv W bs : Int)) :
    0 < min (bs : Int) ((W : Int) - q * bs) := by
  have ha : q.toNat < cdiv W bs := by omega
  have hlt := cdiv_cell_mul_lt bs W q.toNat hbs ha
  have hcast : ((q.toNat : Int)) * (bs : Int) < (W : Int) := by exact_mod_cast hlt
  have hq : ((q.toNat : Int)) = q := by omega
  rw [hq] at hcast
  rw [lt_min_iff]
  constructor
  · exact_mod_cast hbs
  · omega

theorem cell_of_point (bs W : Nat) (hbs : 0 < bs) (x : Int)
    (h0 : 0 ≤ x) (h1 : x < (W : Int)) :
    ∃ q : Int, 0 ≤ q ∧ q < (cdiv W bs : Int) ∧ q * bs ≤ x ∧
      x < q * bs + min (bs : Int) ((W : Int) - q * bs) := by
  have hW : 1 ≤ W := by omega
  set p : Nat := x.toNat with hp
  have hpx : (p : Int) = x := by omega
  have hpq : p < W := by omega
  refine ⟨((p / bs : Nat) : Int), by positivity, ?_, ?_, ?_⟩
  · have hle : p / bs ≤ (W - 1) / bs := Nat.div_le_div_right (by omega)
    have hstep : (W - 1 + bs) / bs = (W - 1) / bs + 1 := Nat.add_div_right _ hbs
    have hcd : cdiv W bs = (W - 1 + bs) / bs := by
      unfold cdiv
      congr 1
      omega
    have : p / bs < cdiv W bs := by omega
    exact_mod_cast this
  · have := Nat.div_mul_le_self p bs
    have hcast : ((p / bs : Nat) : Int) * (bs : Int) ≤ (p : Int) := by exact_mod_cast this
    omega
  · have hdm := Nat.div_add_mod p bs
    have hm := Nat.mod_lt p hbs
    have hmul : bs * (p / bs) = (p / bs) * bs := Nat.mul_comm _ _
    rw [hmul] at hdm
    have hlt : p < (p / bs) * bs + bs := by omega
    have hcast : (p : Int) < ((p / bs : Nat) : Int) * (bs : Int) + (bs : Int) := by
      exact_mod_cast hlt
    rcases le_total (bs : Int) ((W : Int) - ((p / bs : Nat) : Int) * bs) with hmin | hmin
    · rw [min_eq_left hmin]
      omega
    · rw [min_eq_right hmin]
      omega

theorem tileOf_disjoint (W H bs : Nat) (ox oy : Int) (hbs : 0 < bs)
    (q q' : Int × Int) (hne : q ≠ q') (p : Int × Int) :
    ¬ (inTile p (tileOf W H bs ox oy q) ∧ inTile p (tileOf W H bs ox oy q')) := by
  rintro ⟨h1, h2⟩
  unfold inTile tileOf at h1 h2
  simp only [] at h1 h2
  obtain ⟨h1a, h1b, h1c, h1d⟩ := h1
  obtain ⟨h2a, h2b, h2c, h2d⟩ := h2
  have hbsi : (0 : Int) < bs := by exact_mod_cast hbs
  have h1b' : p.1 < q.1 * bs + ox + bs :=
    lt_of_lt_of_le h1b (by
      have := min_le_left (bs : Int) ((W : Int) - q.1 * bs)
      omega)
  have h1d' : p.2 < q.2 * bs + oy + bs :=
    lt_of_lt_of_le h1d (by
      have := min_le_left (bs : Int) ((H : Int) - q.2 * bs)
      omega)
  have h2b' : p.1 < q'.1 * bs + ox + bs :=
    lt_of_lt_of_le h2b (by
      have := min_le_left (bs : Int) ((W : Int) - q'.1 * bs)
      omega)
  have h2d' : p.2 < q'.2 * bs + oy + bs :=
    lt_of_lt_of_le h2d (by
      have := min_le_left (bs : Int) ((H : Int) - q'.2 * bs)
      omega)
  have hx : q.1 = q'.1 := by
    by_contra hxne
    rcases lt_or_gt_of_ne hxne with hlt | hlt
    · have : q.1 * bs + bs ≤ q'.1 * bs := by nlinarith
      omega
    · have : q'.1 * bs + bs ≤ q.1 * bs := by nlinarith
      omega
  have hy : q.2 = q'.2 := by
    by_contra hyne
    rcases lt_or_gt_of_ne hyne with hlt | hlt
    · have : q.2 * bs + bs ≤ q'.2 * bs := by nlinarith
      omega
    · have : q'.2 * bs + bs ≤ q.2 * bs := by nlinarith
      omega
  exact hne (Prod.ext_iff.mpr ⟨hx, hy⟩)

theorem tile_union (W H bs : Nat) (ox oy : Int) (hbs : 0 < bs) (p : Int × Int) :
    (∃ q, inGrid (cdiv W bs) (cdiv H bs) q ∧ inTile p (tileOf W H bs ox oy q)) ↔
      (ox ≤ p.1 ∧ p.1 < ox + W ∧ oy ≤ p.2 ∧ p.2 < oy + H) := by
  constructor
  · rintro ⟨q, hg, ht⟩
    unfold inGrid at hg
    unfold inTile tileOf at ht
    simp only [] at ht
    obtain ⟨ha, hb, hc, hd⟩ := ht
    have hx0 : 0 ≤ q.1 * bs := mul_nonneg hg.1 (by positivity)
    have hy0 : 0 ≤ q.2 * bs := mul_nonneg hg.2.2.1 (by positivity)
    have hbW := min_le_right (bs : Int) ((W : Int) - q.1 * bs)
    have hbH := min_le_right (bs : Int) ((H : Int) - q.2 * bs)
    refine ⟨by omega, by omega, by omega, by omega⟩
  · rintro ⟨ha, hb, hc, hd⟩
    obtain ⟨qx, hx0, hx1, hx2, hx3⟩ :=
      cell_of_point bs W hbs (p.1 - ox) (by omega) (by omega)
    obtain ⟨qy, hy0, hy1, hy2, hy3⟩ :=
      cell_of_point bs H hbs (p.2 - oy) (by omega) (by omega)
    refine ⟨(qx, qy), ⟨hx0, hx1, hy0, hy1⟩, ?_⟩
    unfold inTile tileOf
    simp only []
    refine ⟨by omega, by omega, by omega, by omega⟩

/-! ## Scheduler state invariant -/

theorem hits_snoc_nothit (bX bY n : Nat)
    (h : ¬ inGrid bX bY (posAt (gridCenter bX bY) n)) :
    hits bX bY (n + 1) = hits bX bY n := by
  unfold hits
  rw [List.range_succ, List.filter_append]
  have : List.filter (fun i => inGridB bX bY (posAt (gridCenter bX bY) i)) [n] = [] := by
    rw [List.filter_eq_nil_iff]
    intro a ha
    simp only [List.mem_singleton] at ha
    subst ha
    simpa [inGridB_iff] using h
  rw [this, List.append_nil]

theorem hits_of_gap (bX bY : Nat) :
    ∀ d a, (∀ i, a ≤ i → i < a + d → ¬ inGrid bX bY (posAt (gridCenter bX bY) i)) →
      hits bX bY (a + d) = hits bX bY a := by
  intro d
  induction d with
  | zero => intro a _; rfl
  | succ d ih =>
    intro a hgap
    have h1 : a + (d + 1) = (a + d) + 1 := by omega
    rw [h1, hits_snoc_nothit bX bY (a + d) (hgap (a + d) (by omega) (by omega))]
    exact ih a (fun i hi1 hi2 => hgap i hi1 (by omega))

theorem Hfrom_singleton (bX bY n : Nat)
    (hhit : inGrid bX bY (posAt (gridCenter bX bY) n))
    (hlen : (hits bX bY n).length + 1 = bX * bY) :
    Hfrom bX bY n = [n] := by
  have hnT : n ≤ T (max bX bY) := hitIdx_le bX bY n hhit
  rw [Hfrom_cons_of_hit bX bY n hnT hhit]
  have hsplit := gEnum_split bX bY (n + 1) (by omega)
  have hlen2 : (hits bX bY (n + 1)).length = bX * bY := by
    rw [hits_snoc_hit bX bY n hhit, List.length_append]
    simpa using hlen
  have hg := gEnum_length bX bY
  rw [hsplit, List.length_append, hlen2] at hg
  have : Hfrom bX bY (n + 1) = [] := List.length_eq_zero.1 (by omega)
  rw [this]

/-- Effect of the emit-and-advance tail of `next_block` from a mid-pass
state: the tile of the current cell is returned, and the machine either
finishes the pass (emitting the last remaining hit) or moves to the
next hit index. -/
theorem emitAdvance_step (W H bs : Nat) (ox oy : Int) (hbs : 0 < bs)
    (j n : Nat) (s : Spiral) (h : InvMid W H bs ox oy j n s) :
    ∃ s', emitAdvance s =
        some (s', tileOf W H bs ox oy (posAt (gridCenter (cdiv W bs) (cdiv H bs)) n)) ∧
      s'.remainingPasses = s.remainingPasses ∧ cfgOK W H bs ox oy s' ∧
      ((j + 1 = s.blockCount ∧ s'.blockCounter = s'.blockCount ∧
          Hfrom (cdiv W bs) (cdiv H bs) n = [n]) ∨
       (j + 1 < s.blockCount ∧ ∃ n', InvMid W H bs ox oy (j + 1) n' s' ∧
          Hfrom (cdiv W bs) (cdiv H bs) n = n :: Hfrom (cdiv W bs) (cdiv H bs) n')) := by
  obtain ⟨hcfg, hctr, hle, htrav, hin, hlen⟩ := h
  obtain ⟨c1, c2, c3, c4, c5, c6, c7, c8⟩ := hcfg
  set c := gridCenter (cdiv W bs) (cdiv H bs) with hc
  have hpos : s.trav.pos = posAt c n := by rw [htrav]; rfl
  have hinx := hin
  unfold inGrid at hinx
  have hszX : 0 < min ((s.blockSize : Nat) : Int) ((s.sizeX : Int) - s.trav.pos.1 * s.blockSize) := by
    rw [hpos, c1, c2]
    exact tile_size_pos bs W hbs _ hinx.1 hinx.2.1
  have hszY : 0 < min ((s.blockSize : Nat) : Int) ((s.sizeY : Int) - s.trav.pos.2 * s.blockSize) := by
    rw [hpos, c1, c3]
    exact tile_size_pos bs H hbs _ hinx.2.2.1 hinx.2.2.2
  have hnT : n ≤ T (max (cdiv W bs) (cdiv H bs)) := hitIdx_le _ _ n hin
  by_cases hlast : j + 1 = s.blockCount
  · -- the pass completes with this call: no advance
    refine ⟨{ s with blockCounter := s.blockCounter + 1 }, ?_, rfl, ?_, Or.inl ⟨hlast, ?_, ?_⟩⟩
    · unfold emitAdvance
      simp only []
      rw [if_pos ⟨hszX, hszY⟩]
      have hcond : ¬ (({ s with blockCounter := s.blockCounter + 1 } : Spiral).blockCounter
          ≠ s.blockCount) := by
        show ¬ (s.blockCounter + 1 ≠ s.blockCount)
        omega
      rw [if_neg hcond]
      unfold tileOf
      rw [hpos, c1, c2, c3, c4, c5]
    · exact ⟨c1, c2, c3, c4, c5, c6, c7, c8⟩
    · show s.blockCounter + 1 = s.blockCount
      omega
    · apply Hfrom_singleton
      · exact hin
      · rw [hlen, ← c8]
        exact hlast
  · -- mid-pass: the do-while advances to the next hit
    have hmid : j + 1 < s.blockCount := by omega
    have hlen1 : (hits (cdiv W bs) (cdiv H bs) (n + 1)).length < cdiv W bs * cdiv H bs := by
      rw [hits_snoc_hit _ _ n hin, List.length_append, hlen]
      simp only [List.length_singleton]
      omega
    obtain ⟨n', hn'1, hn'2, hn'3, hn'4⟩ := next_hit (cdiv W bs) (cdiv H bs) n hin hlen1
    have hloop : loopAdv s.blocksX s.blocksY (spiralFuel s.blocksX s.blocksY) s.trav =
        some (stateAt c n') := by
      rw [htrav, c6, c7]
      apply loopAdv_reach _ _ _ n n' hn'1 hn'2 hn'3
      unfold spiralFuel
      omega
    refine ⟨{ s with blockCounter := s.blockCounter + 1, trav := stateAt c n' }, ?_, rfl,
      ⟨c1, c2, c3, c4, c5, c6, c7, c8⟩, Or.inr ⟨hmid, n', ⟨?_, ?_, ?_, rfl, hn'2, ?_⟩, ?_⟩⟩
    · unfold emitAdvance
      simp only []
      rw [if_pos ⟨hszX, hszY⟩]
      have hcond : (({ s with blockCounter := s.blockCounter + 1 } : Spiral).blockCounter
          ≠ s.blockCount) := by
        show s.blockCounter + 1 ≠ s.blockCount
        omega
      rw [if_pos hcond, hloop]
      unfold tileOf
      rw [hpos, c1, c2, c3, c4, c5]
    · exact ⟨c1, c2, c3, c4, c5, c6, c7, c8⟩
    · show s.blockCounter + 1 = j + 1
      omega
    · show j + 1 + 1 ≤ s.blockCount
      omega
    · have hgap : hits (cdiv W bs) (cdiv H bs) n' = hits (cdiv W bs) (cdiv H bs) (n + 1) := by
        have := hits_of_gap (cdiv W bs) (cdiv H bs) (n' - (n + 1)) (n + 1)
          (fun i hi1 hi2 => hn'3 i (by omega) (by omega))
        rw [show n + 1 + (n' - (n + 1)) = n' by omega] at this
        exact this
      rw [hgap, hits_snoc_hit _ _ n hin, List.length_append, hlen]
      simp
    · rw [Hfrom_cons_of_hit _ _ n hnT hin]
      congr 1
      have := Hfrom_of_gap (cdiv W bs) (cdiv H bs) (n' - (n + 1)) (n + 1)
        (fun i hi1 hi2 => hn'3 i (by omega) (by omega))
      rw [show n + 1 + (n' - (n + 1)) = n' by omega] at this
      exact this

/-- Running the rest of a pass from a mid-pass state emits exactly the
tiles of the remaining hit indices, in trajectory order. -/
theorem runTiles_zero (s : Spiral) : runTiles 0 s = some (s, []) := rfl

theorem runTiles_succ (n : Nat) (s : Spiral) :
    runTiles (n + 1) s =
      match nextBlock s with
      | some (s', t) =>
        match runTiles n s' with
        | some (s'', ts) => some (s'', t :: ts)
        | none => none
      | none => none := rfl

theorem runTiles_mid (W H bs : Nat) (ox oy : Int) (hbs : 0 < bs) :
    ∀ r j n s, InvMid W H bs ox oy j n s → j + r = s.blockCount →
      ∃ s', runTiles r s = some (s',
          (Hfrom (cdiv W bs) (cdiv H bs) n).map
            (fun i => tileOf W H bs ox oy (posAt (gridCenter (cdiv W bs) (cdiv H bs)) i))) ∧
        cfgOK W H bs ox oy s' ∧ s'.blockCounter = s'.blockCount ∧
        s'.remainingPasses = s.remainingPasses := by
  intro r
  induction r with
  | zero =>
    intro j n s h hr
    obtain ⟨_, _, hle, _⟩ := h
    omega
  | succ r ih =>
    intro j n s h hr
    have hctr := h.2.1
    have hle := h.2.2.1
    have hnb : nextBlock s = emitAdvance s := by
      unfold nextBlock
      rw [if_neg (by omega)]
    obtain ⟨s', hemit, hrp, hcfg', hcase⟩ := emitAdvance_step W H bs ox oy hbs j n s h
    rcases hcase with ⟨hlast, hctr', hH⟩ | ⟨hmid, n', hinv', hH⟩
    · have hr0 : r = 0 := by omega
      subst hr0
      refine ⟨s', ?_, hcfg', hctr', hrp⟩
      rw [runTiles_succ, hnb, hemit]
      simp only [runTiles_zero, hH]
      simp
    · have hcnt' : s'.blockCount = s.blockCount := by
        rw [hcfg'.2.2.2.2.2.2.2, h.1.2.2.2.2.2.2.2]
      obtain ⟨s'', hrun, hcfg'', hctr'', hrp''⟩ := ih (j + 1) n' s' hinv' (by omega)
      refine ⟨s'', ?_, hcfg'', hctr'', by rw [hrp'', hrp]⟩
      rw [runTiles_succ, hnb, hemit]
      simp only []
      rw [hrun, hH]
      simp

theorem cdiv_pos_iff (W bs : Nat) (hbs : 0 < bs) : 0 < cdiv W bs ↔ 0 < W := by
  unfold cdiv
  constructor
  · intro h
    by_contra hW
    have : W = 0 := by omega
    subst this
    rw [Nat.div_eq_of_lt (by omega)] at h
    omega
  · intro h
    show 1 ≤ (W + bs - 1) / bs
    rw [Nat.one_le_div_iff hbs]
    omega

theorem center_in_grid (bX bY : Nat) (hX : 0 < bX) (hY : 0 < bY) :
    inGrid bX bY (gridCenter bX bY) := by
  unfold inGrid gridCenter
  simp only []
  refine ⟨by positivity, ?_, by positivity, ?_⟩ <;>
    · push_cast
      omega

theorem posAt_zero (c : Int × Int) : posAt c 0 = c := rfl

/-- The freshly constructed scheduler is a valid mid-pass state at the
start of the trajectory, provided the grid is nonempty. -/
theorem spiralInit_inv (W H bs passes : Nat) (ox oy : Int)
    (hcnt : 1 ≤ cdiv W bs * cdiv H bs) :
    InvMid W H bs ox oy 0 0 (spiralInit W H ox oy bs passes) := by
  have hX : 0 < cdiv W bs := by
    rcases Nat.eq_zero_or_pos (cdiv W bs) with h | h
    · rw [h] at hcnt; omega
    · exact h
  have hY : 0 < cdiv H bs := by
    rcases Nat.eq_zero_or_pos (cdiv H bs) with h | h
    · rw [h, Nat.mul_zero] at hcnt; omega
    · exact h
  refine ⟨⟨rfl, rfl, rfl, rfl, rfl, rfl, rfl, rfl⟩, rfl, hcnt, rfl, ?_, rfl⟩
  rw [posAt_zero]
  exact center_in_grid _ _ hX hY

/-- Like `spiralInit_inv` but for the state after an in-pass reset with
one fewer remaining pass (spiral.cpp lines 31-33). -/
theorem reset_inv (W H bs : Nat) (ox oy : Int) (s : Spiral)
    (hcfg : cfgOK W H bs ox oy s) (hcnt : 1 ≤ cdiv W bs * cdiv H bs) (r : Nat) :
    InvMid W H bs ox oy 0 0 (Spiral.reset { s with remainingPasses := r }) := by
  obtain ⟨c1, c2, c3, c4, c5, c6, c7, c8⟩ := hcfg
  have hX : 0 < cdiv W bs := by
    rcases Nat.eq_zero_or_pos (cdiv W bs) with h | h
    · rw [h] at hcnt; omega
    · exact h
  have hY : 0 < cdiv H bs := by
    rcases Nat.eq_zero_or_pos (cdiv H bs) with h | h
    · rw [h, Nat.mul_zero] at hcnt; omega
    · exact h
  refine ⟨⟨c1, c2, c3, c4, c5, c6, c7, c8⟩, rfl, ?_, ?_, ?_, rfl⟩
  · show 0 + 1 ≤ s.blockCount
    omega
  · show travInit (gridCenter s.blocksX s.blocksY) =
      stateAt (gridCenter (cdiv W bs) (cdiv H bs)) 0
    rw [c6, c7]
    rfl
  · rw [posAt_zero]
    exact center_in_grid _ _ hX hY

theorem hits_zero (bX bY : Nat) : hits bX bY 0 = [] := rfl

theorem Hfrom_zero_eq_gEnum (bX bY : Nat) : Hfrom bX bY 0 = gEnum bX bY := by
  have h := gEnum_split bX bY 0 (Nat.zero_le _)
  rw [hits_zero] at h
  simpa using h.symm

/-- One full pass over a fresh scheduler: it succeeds, emits
`block_count` positive-size tiles that are pairwise disjoint, and their
union is exactly the `W × H` raster shifted by the crop offset. -/
theorem spiral_pass_run (W H bs passes : Nat) (ox oy : Int) (hbs : 0 < bs) :
    ∃ s' ts,
      runTiles (spiralInit W H ox oy bs passes).blockCount (spiralInit W H ox oy bs passes) =
        some (s', ts) ∧
      ts.length = (spiralInit W H ox oy bs passes).blockCount ∧
      (∀ t ∈ ts, 0 < t.2.1 ∧ 0 < t.2.2) ∧
      List.Pairwise (fun t t' => ∀ p : Int × Int, ¬ (inTile p t ∧ inTile p t')) ts ∧
      (∀ p : Int × Int, (∃ t ∈ ts, inTile p t) ↔
        (ox ≤ p.1 ∧ p.1 < ox + (W : Int) ∧ oy ≤ p.2 ∧ p.2 < oy + (H : Int))) := by
  have hcount : (spiralInit W H ox oy bs passes).blockCount = cdiv W bs * cdiv H bs := rfl
  rcases Nat.eq_zero_or_pos (cdiv W bs * cdiv H bs) with hz | hpos
  · -- empty grid: the raster has zero area and no tiles are emitted
    have hWH : W = 0 ∨ H = 0 := by
      rcases Nat.mul_eq_zero.1 hz with h | h
      · left
        by_contra hW
        exact absurd ((cdiv_pos_iff W bs hbs).2 (by omega)) (by omega)
      · right
        by_contra hH
        exact absurd ((cdiv_pos_iff H bs hbs).2 (by omega)) (by omega)
    refine ⟨spiralInit W H ox oy bs passes, [], ?_, ?_, by simp, by simp, ?_⟩
    · rw [hcount, hz]
      rfl
    · rw [hcount, hz]
      rfl
    · intro p
      constructor
      · rintro ⟨t, ht, _⟩
        simp at ht
      · rintro ⟨h1, h2, h3, h4⟩
        rcases hWH with h | h <;> subst h <;> simp at h2 h4 <;> omega
  · have hinv := spiralInit_inv W H bs passes ox oy (by omega)
    obtain ⟨s', hrun, _, _, _⟩ :=
      runTiles_mid W H bs ox oy hbs (cdiv W bs * cdiv H bs) 0 0 _ hinv (by
        show 0 + cdiv W bs * cdiv H bs = cdiv W bs * cdiv H bs
        omega)
    rw [Hfrom_zero_eq_gEnum] at hrun
    set bX := cdiv W bs
    set bY := cdiv H bs
    set c := gridCenter bX bY
    set f : Nat → Tile := fun i => tileOf W H bs ox oy (posAt c i) with hf
    refine ⟨s', (gEnum bX bY).map f, by rw [hcount]; exact hrun, ?_, ?_, ?_, ?_⟩
    · rw [List.length_map, gEnum_length, hcount]
    · intro t ht
      rw [List.mem_map] at ht
      obtain ⟨i, hi, rfl⟩ := ht
      have hg := (mem_gEnum bX bY i).1 hi
      unfold inGrid at hg
      constructor
      · exact tile_size_pos bs W hbs _ hg.1 hg.2.1
      · exact tile_size_pos bs H hbs _ hg.2.2.1 hg.2.2.2
    · have hmm : (gEnum bX bY).map f =
          ((gEnum bX bY).map (posAt c)).map (tileOf W H bs ox oy) := by
        rw [List.map_map]
        rfl
      rw [hmm]
      have hnd := gEnum_map_nodup bX bY
      exact List.Pairwise.map _
        (fun a b hab p => tileOf_disjoint W H bs ox oy hbs a b hab p) hnd
    · intro p
      constructor
      · rintro ⟨t, ht, hpt⟩
        rw [List.mem_map] at ht
        obtain ⟨i, hi, rfl⟩ := ht
        exact (tile_union W H bs ox oy hbs p).1 ⟨posAt c i, (mem_gEnum bX bY i).1 hi, hpt⟩
      · intro hr
        obtain ⟨q, hq, hpt⟩ := (tile_union W H bs ox oy hbs p).2 hr
        obtain ⟨i, hi, rfl⟩ := List.mem_map.1 ((gEnum_map_mem bX bY q).2 hq)
        exact ⟨f i, List.mem_map_of_mem f hi, hpt⟩

theorem nextBlock_total (W H bs : Nat) (ox oy : Int) (hbs : 0 < bs)
    (hcnt : 1 ≤ cdiv W bs * cdiv H bs) (s : Spiral) (h : Reach W H bs ox oy s) :
    ∃ s' t, nextBlock s = some (s', t) ∧ Reach W H bs ox oy s' := by
  rcases h with ⟨j, n, hinv⟩ | ⟨hcfg, hend⟩
  · have hctr := hinv.2.1
    have hle := hinv.2.2.1
    have hnb : nextBlock s = emitAdvance s := by
      unfold nextBlock
      rw [if_neg (by omega)]
    obtain ⟨s', hemit, _, hcfg', hcase⟩ := emitAdvance_step W H bs ox oy hbs j n s hinv
    refine ⟨s', _, by rw [hnb, hemit], ?_⟩
    rcases hcase with ⟨_, hctr', _⟩ | ⟨_, n', hinv', _⟩
    · exact Or.inr ⟨hcfg', hctr'⟩
    · exact Or.inl ⟨j + 1, n', hinv'⟩
  · unfold nextBlock
    rw [if_pos hend]
    by_cases hrem : 1 < s.remainingPasses
    · rw [if_pos hrem]
      have hres := reset_inv W H bs ox oy s hcfg hcnt (s.remainingPasses - 1)
      obtain ⟨s', hemit, _, hcfg', hcase⟩ := emitAdvance_step W H bs ox oy hbs 0 0 _ hres
      refine ⟨s', _, hemit, ?_⟩
      rcases hcase with ⟨_, hctr', _⟩ | ⟨_, n', hinv', _⟩
      · exact Or.inr ⟨hcfg', hctr'⟩
      · exact Or.inl ⟨1, n', hinv'⟩
    · rw [if_neg hrem]
      exact ⟨s, ((0, 0), (0, 0)), rfl, Or.inr ⟨hcfg, hend⟩⟩

theorem runTiles_total (W H bs : Nat) (ox oy : Int) (hbs : 0 < bs)
    (hcnt : 1 ≤ cdiv W bs * cdiv H bs) :
    ∀ m s, Reach W H bs ox oy s → ∃ out, runTiles m s = some out := by
  intro m
  induction m with
  | zero => intro s _; exact ⟨(s, []), rfl⟩
  | succ m ih =>
    intro s hreach
    obtain ⟨s', t, hnb, hreach'⟩ := nextBlock_total W H bs ox oy hbs hcnt s hreach
    obtain ⟨⟨s'', ts⟩, hout⟩ := ih s' hreach'
    refine ⟨(s'', t :: ts), ?_⟩
    rw [runTiles_succ, hnb]
    simp only []
    rw [hout]

/-- Zero-area configurations with at most one pass: the scheduler has no
blocks and every call returns the terminal tile, leaving the state
unchanged. -/
theorem spiral_zero_area_run (W H bs passes : Nat) (ox oy : Int)
    (hz : W = 0 ∨ H = 0) (hp : passes ≤ 1) :
    (spiralInit W H ox oy bs passes).blockCount = 0 ∧
    ∀ m, runTiles m (spiralInit W H ox oy bs passes) =
      some (spiralInit W H ox oy bs passes, List.replicate m ((0, 0), (0, 0))) := by
  have hc0 : cdiv 0 bs = 0 := by
    unfold cdiv
    rcases Nat.eq_zero_or_pos bs with h | h
    · subst h
      rfl
    · exact Nat.div_eq_of_lt (by omega)
  have hcount : (spiralInit W H ox oy bs passes).blockCount = 0 := by
    show cdiv W bs * cdiv H bs = 0
    rcases hz with h | h <;> subst h <;> simp [hc0]
  refine ⟨hcount, ?_⟩
  have hterm : nextBlock (spiralInit W H ox oy bs passes) =
      some (spiralInit W H ox oy bs passes, ((0, 0), (0, 0))) := by
    unfold nextBlock
    rw [if_pos (by
      show (0 : Nat) = (spiralInit W H ox oy bs passes).blockCount
      rw [hcount]), if_neg (by
      show ¬ (1 < passes)
      omega)]
  intro m
  induction m with
  | zero => rfl
  | succ m ih =>
    rw [runTiles_succ, hterm]
    simp only []
    rw [ih]
    rfl

/-! ### Accumulation algebra: pointwise effect of a write list -/

theorem applyWrites_nil (data : List Rat) : applyWrites data [] = data := rfl

theorem applyWrites_cons (data : List Rat) (iv : Nat × Rat) (ws : List (Nat × Rat)) :
    applyWrites data (iv :: ws) =
      applyWrites (data.modify (fun t => t + iv.2) iv.1) ws := rfl

theorem applyWrites_length (ws : List (Nat × Rat)) :
    ∀ data : List Rat, (applyWrites data ws).length = data.length := by
  induction ws with
  | nil => intro data; rfl
  | cons iv ws ih =>
    intro data
    rw [applyWrites_cons, ih, List.length_modify]

theorem getD_modify (l : List Rat) (f : Rat → Rat) (n i : Nat) (hi : i < l.length) :
    (l.modify f n).getD i 0 = if n = i then f (l.getD i 0) else l.getD i 0 := by
  rw [List.getD_eq_getElem?_getD, List.getElem?_modify, List.getD_eq_getElem?_getD,
      List.getElem?_eq_getElem hi]
  split <;> simp

theorem sum_modify_add (n : Nat) (δ : Rat) :
    ∀ l : List Rat, n < l.length → (l.modify (fun t => t + δ) n).sum = l.sum + δ := by
  induction n with
  | zero =>
    intro l hl
    cases l with
    | nil => simp at hl
    | cons a l => simp [List.modify]; ring
  | succ n ih =>
    intro l hl
    cases l with
    | nil => simp at hl
    | cons a l =>
      simp only [List.modify_succ_cons, List.sum_cons]
      rw [ih l (by simpa using hl)]
      ring

theorem applyWrites_getD (ws : List (Nat × Rat)) :
    ∀ (data : List Rat) (i : Nat), i < data.length →
      (applyWrites data ws).getD i 0 =
        data.getD i 0 + ((ws.filter (fun iv => iv.1 == i)).map (fun iv => iv.2)).sum := by
  induction ws with
  | nil => intro data i hi; simp [applyWrites_nil]
  | cons iv ws ih =>
    intro data i hi
    rw [applyWrites_cons, ih _ i (by rw [List.length_modify]; exact hi),
        getD_modify data _ iv.1 i hi, List.filter_cons]
    by_cases h : iv.1 = i
    · simp only [h, if_pos rfl, beq_self_eq_true, if_pos]
      simp only [List.map_cons, List.sum_cons]
      ring
    · have hb : (iv.1 == i) = false := by simp [h]
      rw [if_neg h, hb]
      simp

theorem sum_applyWrites (ws : List (Nat × Rat)) :
    ∀ data : List Rat, (∀ iv ∈ ws, iv.1 < data.length) →
      (applyWrites data ws).sum = data.sum + (ws.map (fun iv => iv.2)).sum := by
  induction ws with
  | nil => intro data _; simp [applyWrites_nil]
  | cons iv ws ih =>
    intro data hmem
    rw [applyWrites_cons, ih _ (fun jv hjv => by
      rw [List.length_modify]
      exact hmem jv (List.mem_cons_of_mem _ hjv))]
    rw [sum_modify_add iv.1 iv.2 data (hmem iv (List.mem_cons_self _ _))]
    simp only [List.map_cons, List.sum_cons]
    ring

/-! ### Sum bookkeeping helpers -/

theorem sum_map_flatMap {α β : Type} (g : α → List β) (f : β → Rat) :
    ∀ l : List α, ((l.flatMap g).map f).sum = (l.map (fun a => ((g a).map f).sum)).sum := by
  intro l
  induction l with
  | nil => simp
  | cons a l ih =>
    rw [List.flatMap_cons, List.map_append, List.sum_append, ih]
    simp

theorem sum_filter_flatMap {α : Type} (g : α → List (Nat × Rat)) (i : Nat) :
    ∀ l : List α,
      (((l.flatMap g).filter (fun iv => iv.1 == i)).map (fun iv => iv.2)).sum =
        (l.map (fun a => (((g a).filter (fun iv => iv.1 == i)).map (fun iv => iv.2)).sum)).sum := by
  intro l
  induction l with
  | nil => simp
  | cons a l ih =>
    rw [List.flatMap_cons, List.filter_append, List.map_append, List.sum_append, ih]
    simp

theorem sum_filter_filterMap (cond : Nat → Bool) (idx : Nat → Nat) (dl : Nat → Rat) (i : Nat) :
    ∀ l : List Nat,
      (((l.filterMap (fun j => if cond j then some (idx j, dl j) else none)).filter
          (fun iv => iv.1 == i)).map (fun iv => iv.2)).sum =
        (l.map (fun j => if cond j = true ∧ idx j = i then dl j else 0)).sum := by
  intro l
  induction l with
  | nil => simp
  | cons j l ih =>
    by_cases hc : cond j
    · rw [List.filterMap_cons_some (b := (idx j, dl j)) (by rw [if_pos hc])]
      rw [List.filter_cons]
      by_cases hi : idx j = i
      · have hb : ((idx j, dl j).1 == i) = true := by simp [hi]
        rw [hb, if_pos (by trivial)]
        simp only [List.map_cons, List.sum_cons]
        rw [ih, if_pos ⟨hc, hi⟩]
      · have hb : ((idx j, dl j).1 == i) = false := by simp [hi]
        rw [hb, if_neg (by simp), ih, List.map_cons, List.sum_cons,
            if_neg (by simp [hi])]
        rw [zero_add]
    · rw [List.filterMap_cons_none (by rw [if_neg hc])]
      rw [ih, List.map_cons, List.sum_cons, if_neg (by simp [hc])]
      rw [zero_add]

theorem list_sum_range (f : Nat → Rat) :
    ∀ n : Nat, ((List.range n).map f).sum = Finset.sum (Finset.range n) f := by
  intro n
  induction n with
  | zero => simp
  | succ n ih =>
    rw [List.range_succ, List.map_append, List.sum_append, Finset.sum_range_succ, ih]
    simp

theorem sum_filter_filterMap_vec (blk : ImageBlock) (posL : List (Rat × Rat))
    (vals : List (List Rat)) (active : List Bool) (yr xr k i : Nat) :
    ((((List.range active.length).filterMap (fun j =>
          if laneEnabled blk posL vals active j yr xr then
            some (vecIdx blk posL j yr xr k, vecDelta blk posL vals j yr xr k)
          else none)).filter (fun iv => iv.1 == i)).map (fun iv => iv.2)).sum =
      ((List.range active.length).map (fun j =>
        if laneEnabled blk posL vals active j yr xr = true ∧ vecIdx blk posL j yr xr k = i
        then vecDelta blk posL vals j yr xr k else 0)).sum :=
  sum_filter_filterMap _ _ _ _ _

theorem vectorWrites_filter_sum (blk : ImageBlock) (posL : List (Rat × Rat))
    (vals : List (List Rat)) (active : List Bool) (i : Nat) :
    (((vectorWrites blk posL vals active).filter (fun iv => iv.1 == i)).map
        (fun iv => iv.2)).sum =
      Finset.sum (Finset.range active.length)
        (fun j => laneContrib blk posL vals active j i) := by
  unfold vectorWrites laneContrib
  simp only [sum_filter_flatMap, sum_filter_filterMap_vec, list_sum_range]
  have step1 : ∀ yr xr : Nat,
      Finset.sum (Finset.range blk.channels) (fun k =>
        Finset.sum (Finset.range active.length) (fun j =>
          if laneEnabled blk posL vals active j yr xr = true ∧ vecIdx blk posL j yr xr k = i
          then vecDelta blk posL vals j yr xr k else 0)) =
      Finset.sum (Finset.range active.length) (fun j =>
        Finset.sum (Finset.range blk.channels) (fun k =>
          if laneEnabled blk posL vals active j yr xr = true ∧ vecIdx blk posL j yr xr k = i
          then vecDelta blk posL vals j yr xr k else 0)) :=
    fun yr xr => Finset.sum_comm
  simp only [step1]
  have step2 : ∀ yr : Nat,
      Finset.sum (Finset.range ((maxSizes blk posL active.length).1.toNat + 1)) (fun xr =>
        Finset.sum (Finset.range active.length) (fun j =>
          Finset.sum (Finset.range blk.channels) (fun k =>
            if laneEnabled blk posL vals active j yr xr = true ∧ vecIdx blk posL j yr xr k = i
            then vecDelta blk posL vals j yr xr k else 0))) =
      Finset.sum (Finset.range active.length) (fun j =>
        Finset.sum (Finset.range ((maxSizes blk posL active.length).1.toNat + 1)) (fun xr =>
          Finset.sum (Finset.range blk.channels) (fun k =>
            if laneEnabled blk posL vals active j yr xr = true ∧ vecIdx blk posL j yr xr k = i
            then vecDelta blk posL vals j yr xr k else 0))) :=
    fun yr => Finset.sum_comm
  simp only [step2]
  exact Finset.sum_comm

theorem isValidMask_length (blk : ImageBlock) (active : List Bool)
    (vals : List (List Rat)) : (isValidMask blk active vals).length = active.length := by
  unfold isValidMask
  split <;> simp

theorem isValidMask_getD (blk : ImageBlock) (active : List Bool)
    (vals : List (List Rat)) (hw : blk.warn = true) (j : Nat) (hj : j < active.length) :
    (isValidMask blk active vals).getD j true =
      ((! active.getD j false) || laneValid blk.channels vals j) := by
  unfold isValidMask
  rw [if_pos hw]
  have hjl : j < ((List.range active.length).map (fun j =>
      (! active.getD j false) || laneValid blk.channels vals j)).length := by
    simp [hj]
  rw [List.getD_eq_getElem?_getD, List.getElem?_eq_getElem hjl]
  simp

/-- A lane that is inactive or invalid contributes nothing. -/
theorem laneContrib_eq_zero (blk : ImageBlock) (posL : List (Rat × Rat))
    (vals : List (List Rat)) (active : List Bool) (j i : Nat)
    (h : active.getD j false = false ∨ (isValidMask blk active vals).getD j true = false) :
    laneContrib blk posL vals active j i = 0 := by
  unfold laneContrib
  apply Finset.sum_eq_zero
  intro yr _
  apply Finset.sum_eq_zero
  intro xr _
  apply Finset.sum_eq_zero
  intro k _
  rw [if_neg]
  rintro ⟨hen, _⟩
  unfold laneEnabled at hen
  rcases h with h | h <;> rw [h] at hen <;> simp at hen

/-- Pointwise effect of the vectorized put on the buffer: every entry
receives the sum of the contributions of all lanes that scatter to it. -/
theorem putVector_data_getD (blk : ImageBlock) (posL : List (Rat × Rat))
    (vals : List (List Rat)) (active : List Bool) (i : Nat)
    (hi : i < blk.data.length) :
    (putVector blk posL vals active).1.data.getD i 0 =
      blk.data.getD i 0 +
        Finset.sum (Finset.range active.length)
          (fun j => laneContrib blk posL vals active j i) := by
  unfold putVector
  simp only []
  by_cases hearly : blk.warn ∧ (isValidMask blk active vals).all (fun b => ! b)
  · rw [if_pos hearly]
    have hzero : ∀ j ∈ Finset.range active.length,
        laneContrib blk posL vals active j i = 0 := by
      intro j hj
      rw [Finset.mem_range] at hj
      apply laneContrib_eq_zero
      right
      have hall := hearly.2
      rw [List.all_eq_true] at hall
      have hjlen : j < (isValidMask blk active vals).length := by
        rw [isValidMask_length]
        exact hj
      rw [List.getD_eq_getElem?_getD, List.getElem?_eq_getElem hjlen]
      have hmem := List.getElem_mem hjlen
      have := hall _ hmem
      simpa using this
    rw [Finset.sum_eq_zero hzero, add_zero]
  · rw [if_neg hearly]
    simp only []
    rw [applyWrites_getD _ _ _ hi, vectorWrites_filter_sum]

/-! ### Scalar footprint geometry and weight totals -/

theorem mem_intRange (lo hi a : Int) : a ∈ intRange lo hi ↔ lo ≤ a ∧ a ≤ hi := by
  unfold intRange
  simp only [List.mem_map, List.mem_range]
  constructor
  · rintro ⟨t, ht, rfl⟩
    omega
  · rintro ⟨h1, h2⟩
    exact ⟨(a - lo).toNat, by omega, by omega⟩

theorem scalarTaps_mem (blk : ImageBlock) (p : Rat × Rat) (t : Nat × Rat × Nat)
    (ht : t ∈ scalarTaps blk p) :
    ∃ y x : Int, ((footLo blk p).2 ≤ y ∧ y ≤ (footHi blk p).2) ∧
      ((footLo blk p).1 ≤ x ∧ x ≤ (footHi blk p).1) ∧ t.2.2 < blk.channels ∧
      t.1 = ((y * blk.bsizeX + x) * (blk.channels : Int) + ((t.2.2 : Nat) : Int)).toNat := by
  unfold scalarTaps at ht
  rw [List.mem_flatMap] at ht
  obtain ⟨y, hy, ht⟩ := ht
  rw [List.mem_flatMap] at ht
  obtain ⟨x, hx, ht⟩ := ht
  rw [List.mem_map] at ht
  obtain ⟨k, hk, rfl⟩ := ht
  rw [List.mem_range] at hk
  rw [mem_intRange] at hy hx
  exact ⟨y, x, hy, hx, hk, rfl⟩

/-- Every scalar tap stays inside a correctly sized buffer: the clamps
in `footLo`/`footHi` keep the flat index in range. -/
theorem scalarTaps_idx_lt (blk : ImageBlock) (p : Rat × Rat)
    (hdata : blk.data.length = (blk.bsizeX * blk.bsizeY * blk.channels).toNat) :
    ∀ t ∈ scalarTaps blk p, t.1 < blk.data.length := by
  intro t ht
  obtain ⟨y, x, ⟨hy1, hy2⟩, ⟨hx1, hx2⟩, hk, hidx⟩ := scalarTaps_mem blk p t ht
  have hy0 : (0 : Int) ≤ y := le_trans (le_max_right _ 0) hy1
  have hx0 : (0 : Int) ≤ x := le_trans (le_max_right _ 0) hx1
  have hyB : y ≤ blk.bsizeY - 1 := le_trans hy2 (min_le_right _ _)
  have hxB : x ≤ blk.bsizeX - 1 := le_trans hx2 (min_le_right _ _)
  have hch : (1 : Int) ≤ (blk.channels : Int) := by
    have : 1 ≤ blk.channels := by omega
    exact_mod_cast this
  have h1 : y * blk.bsizeX ≤ (blk.bsizeY - 1) * blk.bsizeX :=
    mul_le_mul_of_nonneg_right (by omega) (by omega)
  have e1 : (blk.bsizeY - 1) * blk.bsizeX = blk.bsizeY * blk.bsizeX - blk.bsizeX := by ring
  have h2 : y * blk.bsizeX + x ≤ blk.bsizeY * blk.bsizeX - 1 := by omega
  have h3 : (y * blk.bsizeX + x) * (blk.channels : Int) ≤
      (blk.bsizeY * blk.bsizeX - 1) * (blk.channels : Int) :=
    mul_le_mul_of_nonneg_right h2 (by omega)
  have e2 : (blk.bsizeY * blk.bsizeX - 1) * (blk.channels : Int) =
      blk.bsizeY * blk.bsizeX * (blk.channels : Int) - (blk.channels : Int) := by ring
  have e3 : blk.bsizeY * blk.bsizeX * (blk.channels : Int) =
      blk.bsizeX * blk.bsizeY * (blk.channels : Int) := by ring
  have hkc : ((t.2.2 : Nat) : Int) < (blk.channels : Int) := by omega
  have hyx0 : (0 : Int) ≤ y * blk.bsizeX + x := by
    have := mul_nonneg hy0 (show (0 : Int) ≤ blk.bsizeX by omega)
    omega
  have hnn : (0 : Int) ≤ (y * blk.bsizeX + x) * (blk.channels : Int) + ((t.2.2 : Nat) : Int) := by
    have := mul_nonneg hyx0 (show (0 : Int) ≤ (blk.channels : Int) by omega)
    omega
  rw [hidx, hdata]
  omega

theorem sum_map_add' {α : Type} (f g : α → Rat) :
    ∀ l : List α, (l.map (fun a => f a + g a)).sum = (l.map f).sum + (l.map g).sum := by
  intro l
  induction l with
  | nil => simp
  | cons a l ih =>
    simp only [List.map_cons, List.sum_cons, ih]
    ring

/-- The raw (unrescaled) total splatted by one valid scalar sample: the
product of the x-weight sum, the y-weight sum, and the channel total —
`put` performs no normalization of the footprint weights. -/
theorem scalarWrites_sum (blk : ImageBlock) (p : Rat × Rat) (value : List Rat) :
    ((scalarWrites blk p value).map (fun iv => iv.2)).sum =
      (((intRange (footLo blk p).1 (footHi blk p).1).map
          (fun x : Int => blk.evalDisc ((x : Rat) - p.1))).sum) *
      (((intRange (footLo blk p).2 (footHi blk p).2).map
          (fun y : Int => blk.evalDisc ((y : Rat) - p.2))).sum) *
      (((List.range blk.channels).map (fun k => value.getD k 0)).sum) := by
  unfold scalarWrites scalarTaps
  rw [List.map_map, sum_map_flatMap]
  have hy : ∀ y : Int,
      (((intRange (footLo blk p).1 (footHi blk p).1).flatMap (fun x =>
        (List.range blk.channels).map (fun k =>
          (((y * blk.bsizeX + x) * (blk.channels : Int) + ((k : Nat) : Int)).toNat,
           blk.evalDisc ((x : Rat) - p.1) * blk.evalDisc ((y : Rat) - p.2), k)))).map
        ((fun iv => iv.2) ∘ fun t => (t.1, t.2.1 * value.getD t.2.2 0))).sum =
      (((intRange (footLo blk p).1 (footHi blk p).1).map
          (fun x : Int => blk.evalDisc ((x : Rat) - p.1))).sum) *
        (blk.evalDisc ((y : Rat) - p.2) *
          ((List.range blk.channels).map (fun k => value.getD k 0)).sum) := by
    intro y
    rw [sum_map_flatMap]
    have hx : ∀ x : Int,
        (((List.range blk.channels).map (fun k =>
          (((y * blk.bsizeX + x) * (blk.channels : Int) + ((k : Nat) : Int)).toNat,
           blk.evalDisc ((x : Rat) - p.1) * blk.evalDisc ((y : Rat) - p.2), k))).map
          ((fun iv => iv.2) ∘ fun t => (t.1, t.2.1 * value.getD t.2.2 0))).sum =
        blk.evalDisc ((x : Rat) - p.1) * (blk.evalDisc ((y : Rat) - p.2) *
          ((List.range blk.channels).map (fun k => value.getD k 0)).sum) := by
      intro x
      rw [List.map_map]
      have hfun : ((((fun iv => iv.2) ∘
          fun t : Nat × Rat × Nat => (t.1, t.2.1 * value.getD t.2.2 0)) ∘
          (fun k => (((y * blk.bsizeX + x) * (blk.channels : Int) + ((k : Nat) : Int)).toNat,
            blk.evalDisc ((x : Rat) - p.1) * blk.evalDisc ((y : Rat) - p.2), k)))) =
          fun k => (blk.evalDisc ((x : Rat) - p.1) * blk.evalDisc ((y : Rat) - p.2)) *
            value.getD k 0 := rfl
      rw [hfun, List.sum_map_mul_left, mul_assoc]
    simp only [hx]
    rw [List.sum_map_mul_right]
  simp only [hy]
  rw [List.sum_map_mul_left, mul_assoc, List.sum_map_mul_right]

/-! ### Additivity of the scalar put -/

theorem zipWith_add_getD :
    ∀ (v1 v2 : List Rat) (k : Nat), k < v1.length → k < v2.length →
      (List.zipWith (fun a b => a + b) v1 v2).getD k 0 = v1.getD k 0 + v2.getD k 0 := by
  intro v1
  induction v1 with
  | nil => intro v2 k h1 _; simp at h1
  | cons a v1 ih =>
    intro v2 k h1 h2
    cases v2 with
    | nil => simp at h2
    | cons b v2 =>
      cases k with
      | zero => simp
      | succ k =>
        rw [List.zipWith_cons_cons, List.getD_cons_succ, List.getD_cons_succ,
            List.getD_cons_succ]
        exact ih v2 k (by simpa using h1) (by simpa using h2)

theorem eq_of_getD (l l' : List Rat) (hlen : l.length = l'.length)
    (h : ∀ i, i < l.length → l.getD i 0 = l'.getD i 0) : l = l' := by
  apply List.ext_getElem?
  intro n
  by_cases hn : n < l.length
  · have hn' : n < l'.length := by omega
    rw [List.getElem?_eq_getElem hn, List.getElem?_eq_getElem hn']
    have := h n hn
    rw [List.getD_eq_getElem?_getD, List.getD_eq_getElem?_getD,
        List.getElem?_eq_getElem hn, List.getElem?_eq_getElem hn'] at this
    simpa using this
  · rw [List.getElem?_eq_none (by omega), List.getElem?_eq_none (by omega)]

theorem sum_filter_map_taps {α : Type} (idx : α → Nat) (dl : α → Rat) (i : Nat) :
    ∀ l : List α,
      (((l.map (fun t => (idx t, dl t))).filter (fun iv => iv.1 == i)).map
          (fun iv => iv.2)).sum =
        (l.map (fun t => if idx t = i then dl t else 0)).sum := by
  intro l
  induction l with
  | nil => simp
  | cons t l ih =>
    rw [List.map_cons, List.filter_cons]
    by_cases hi : idx t = i
    · have hb : ((idx t, dl t).1 == i) = true := by simp [hi]
      rw [hb, if_pos (by trivial)]
      simp only [List.map_cons, List.sum_cons]
      rw [ih, if_pos hi]
    · have hb : ((idx t, dl t).1 == i) = false := by simp [hi]
      rw [hb, if_neg (by simp), ih, List.map_cons, List.sum_cons, if_neg hi, zero_add]

/-- Both branches of the scalar put leave every field but the data
buffer unchanged. -/
theorem putScalar_fst (blk : ImageBlock) (pos : Rat × Rat) (value : List Rat) :
    (putScalar blk pos value).1 =
      { blk with data :=
          if blk.warn ∧ ¬ validSample blk.channels value then blk.data
          else applyWrites blk.data (scalarWrites blk (localize blk pos) value) } := by
  unfold putScalar
  by_cases h : blk.warn ∧ ¬ validSample blk.channels value
  · rw [if_pos h, if_pos h]
  · rw [if_neg h, if_neg h]

theorem validSample_zipWith_add (ch : Nat) (v1 v2 : List Rat)
    (hl1 : v1.length = ch) (hl2 : v2.length = ch)
    (h1 : validSample ch v1 = true) (h2 : validSample ch v2 = true) :
    validSample ch (List.zipWith (fun a b => a + b) v1 v2) = true := by
  unfold validSample at h1 h2 ⊢
  rw [List.all_eq_true] at h1 h2 ⊢
  intro k hk
  rw [List.mem_range] at hk
  have hv1 := h1 k (by rw [List.mem_range]; exact hk)
  have hv2 := h2 k (by rw [List.mem_range]; exact hk)
  simp only [decide_eq_true_eq] at hv1 hv2 ⊢
  rw [zipWith_add_getD v1 v2 k (by omega) (by omega)]
  exact add_nonneg hv1 hv2

/-- Core additivity: splatting `v1` then `v2` at the same position gives
the same buffer as splatting their channel-wise sum, whenever the
validity gate rejects neither call. -/
theorem putScalar_add_core (blk : ImageBlock) (pos : Rat × Rat) (v1 v2 : List Rat)
    (h1 : v1.length = blk.channels) (h2 : v2.length = blk.channels)
    (hv : blk.warn = false ∨ (validSample blk.channels v1 = true ∧
      validSample blk.channels v2 = true)) :
    (putScalar (putScalar blk pos v1).1 pos v2).1.data =
      (putScalar blk pos (List.zipWith (fun a b => a + b) v1 v2)).1.data := by
  have hc1 : ¬ (blk.warn ∧ ¬ validSample blk.channels v1 = true) := by
    rcases hv with hw | ⟨hva, _⟩
    · rw [hw]; simp
    · rw [hva]; simp
  have hc2 : ¬ (blk.warn ∧ ¬ validSample blk.channels v2 = true) := by
    rcases hv with hw | ⟨_, hvb⟩
    · rw [hw]; simp
    · rw [hvb]; simp
  have hc12 : ¬ (blk.warn ∧
      ¬ validSample blk.channels (List.zipWith (fun a b => a + b) v1 v2) = true) := by
    rcases hv with hw | ⟨hva, hvb⟩
    · rw [hw]; simp
    · rw [validSample_zipWith_add blk.channels v1 v2 h1 h2 hva hvb]; simp
  set p := localize blk pos with hp
  set W1 := scalarWrites blk p v1 with hW1
  set B1 : ImageBlock := { blk with data := applyWrites blk.data W1 } with hB1
  have e1 : (putScalar blk pos v1).1 = B1 := by
    rw [putScalar_fst, if_neg hc1]
  have e2 : (putScalar B1 pos v2).1 =
      { B1 with data := applyWrites B1.data (scalarWrites blk p v2) } := by
    rw [putScalar_fst, if_neg hc2]
    rfl
  have e3 : (putScalar blk pos (List.zipWith (fun a b => a + b) v1 v2)).1 =
      { blk with data := (applyWrites blk.data (scalarWrites blk p (List.zipWith (fun a b => a + b) v1 v2))) } := by
    rw [putScalar_fst, if_neg hc12]
  rw [e1, e2, e3]
  show applyWrites (applyWrites blk.data W1) (scalarWrites blk p v2) =
    applyWrites blk.data (scalarWrites blk p (List.zipWith (fun a b => a + b) v1 v2))
  apply eq_of_getD
  · rw [applyWrites_length, applyWrites_length, applyWrites_length]
  · intro i hi
    rw [applyWrites_length, applyWrites_length] at hi
    rw [applyWrites_getD _ _ _ (by rw [applyWrites_length]; exact hi),
        applyWrites_getD _ _ _ hi, applyWrites_getD _ _ _ hi]
    have hsum : ∀ v : List Rat,
        (((scalarWrites blk p v).filter (fun iv => iv.1 == i)).map (fun iv => iv.2)).sum =
          ((scalarTaps blk p).map
            (fun t => if t.1 = i then t.2.1 * v.getD t.2.2 0 else 0)).sum := by
      intro v
      unfold scalarWrites
      exact sum_filter_map_taps (fun t : Nat × Rat × Nat => t.1)
        (fun t : Nat × Rat × Nat => t.2.1 * v.getD t.2.2 0) i _
    rw [hsum, hsum, hsum]
    have hpt : ((scalarTaps blk p).map
        (fun t => if t.1 = i then
          t.2.1 * (List.zipWith (fun a b => a + b) v1 v2).getD t.2.2 0 else 0)) =
        ((scalarTaps blk p).map
          (fun t => (if t.1 = i then t.2.1 * v1.getD t.2.2 0 else 0) +
            (if t.1 = i then t.2.1 * v2.getD t.2.2 0 else 0))) := by
      apply List.map_congr_left
      intro t ht
      obtain ⟨_, _, _, _, hk, _⟩ := scalarTaps_mem blk p t ht
      rw [zipWith_add_getD v1 v2 t.2.2 (by omega) (by omega)]
      by_cases hti : t.1 = i
      · rw [if_pos hti, if_pos hti, if_pos hti]
        ring
      · rw [if_neg hti, if_neg hti, if_neg hti]
        ring
    rw [hpt, sum_map_add']
    ring

/-- Both branches of the vectorized put return the `is_valid` mask
(imageblock.cpp lines 133 and 206). -/
theorem putVector_snd (blk : ImageBlock) (posL : List (Rat × Rat))
    (vals : List (List Rat)) (active : List Bool) :
    (putVector blk posL vals active).2 = isValidMask blk active vals := by
  unfold putVector
  simp only []
  by_cases h : blk.warn ∧ (isValidMask blk active vals).all (fun b => ! b)
  · rw [if_pos h]
  · rw [if_neg h]

/-- A `getD` that returns `true` against a `false` default is in range. -/
theorem getD_true_lt (l : List Bool) (j : Nat) (h : l.getD j false = true) :
    j < l.length := by
  by_contra hj
  rw [List.getD_eq_getElem?_getD, List.getElem?_eq_none (le_of_not_lt hj)] at h
  simp at h

/-- In-bounds indices of the scalar write list. -/
theorem scalarWrites_idx_lt (blk : ImageBlock) (p : Rat × Rat) (value : List Rat)
    (hdata : blk.data.length = (blk.bsizeX * blk.bsizeY * blk.channels).toNat) :
    ∀ iv ∈ scalarWrites blk p value, iv.1 < blk.data.length := by
  intro iv hiv
  unfold scalarWrites at hiv
  rw [List.mem_map] at hiv
  obtain ⟨t, ht, rfl⟩ := hiv
  exact scalarTaps_idx_lt blk p hdata t ht

/-! ## Claim theorems -/

/-- C3: `init_discretization` with positive radius samples `eval` at the
equally spaced abscissas `radius*i/RESOLUTION` for `i < RESOLUTION`,
forces the final table entry (index `RESOLUTION`) to exactly zero, and
sets `scale_factor = RESOLUTION/radius` and
`border_size = ceil(radius - 0.5 - 2*eps)`. -/
theorem initDiscretization_spec (RES : Nat) (radius : Rat) (eval : Rat → Rat)
    (hr : 0 < radius) :
    ∃ f, initDiscretization RES radius eval = some f ∧
      f.values.length = RES + 1 ∧
      (∀ i, i < RES → f.values.getD i 0 = eval (radius * i / RES)) ∧
      f.values.getD RES 0 = 0 ∧
      f.scaleFactor = (RES : Rat) / radius ∧
      (f.borderSize : Int) = ⌈radius - 1/2 - 2 * mathEpsilon⌉ := by
  refine ⟨_, by unfold initDiscretization; rw [if_pos hr], ?_, ?_, ?_, rfl, ?_⟩
  · simp
  · intro i hi
    rw [List.getD_append _ _ _ i (by simp [hi])]
    have hil : i < ((List.range RES).map (fun i : Nat => eval (radius * i / RES))).length := by
      simp [hi]
    rw [List.getD_eq_getElem?_getD, List.getElem?_eq_getElem hil]
    simp
  · rw [List.getD_append_right _ _ _ _ (by simp)]
    simp
  · have hne : (-1 : Int) < ⌈radius - 1/2 - 2 * mathEpsilon⌉ := by
      rw [Int.lt_ceil]
      unfold mathEpsilon
      push_cast
      linarith
    simp only []
    omega

/-- Witness for C3 at a concrete filter: RESOLUTION 4, radius 2,
identity kernel. -/
theorem initDiscretization_spec_witness :
    (0 : Rat) < 2 ∧
    ∃ f, initDiscretization 4 2 (fun x => x) = some f ∧
      f.values.length = 4 + 1 ∧
      (∀ i, i < 4 → f.values.getD i 0 = (fun x : Rat => x) (2 * i / 4)) ∧
      f.values.getD 4 0 = 0 ∧
      f.scaleFactor = ((4 : Nat) : Rat) / 2 ∧
      (f.borderSize : Int) = ⌈(2 : Rat) - 1/2 - 2 * mathEpsilon⌉ :=
  ⟨by norm_num, initDiscretization_spec 4 2 (fun x => x) (by norm_num)⟩

/-- C1: for every configuration (full raster W×H, crop offset (ox,oy),
block size bs > 0, any pass count), running next_block block_count
times from the freshly constructed scheduler succeeds; the returned
tiles all have positive size, are pairwise non-overlapping, and their
union exactly covers the crop-shifted W×H raster. -/
theorem spiral_pass_partition (W H bs passes : Nat) (ox oy : Int) (hbs : 0 < bs) :
    ∃ s' ts,
      runTiles (spiralInit W H ox oy bs passes).blockCount (spiralInit W H ox oy bs passes) =
        some (s', ts) ∧
      ts.length = (spiralInit W H ox oy bs passes).blockCount ∧
      (∀ t ∈ ts, 0 < t.2.1 ∧ 0 < t.2.2) ∧
      List.Pairwise (fun t t' => ∀ p : Int × Int, ¬ (inTile p t ∧ inTile p t')) ts ∧
      (∀ p : Int × Int, (∃ t ∈ ts, inTile p t) ↔
        (ox ≤ p.1 ∧ p.1 < ox + (W : Int) ∧ oy ≤ p.2 ∧ p.2 < oy + (H : Int))) :=
  spiral_pass_run W H bs passes ox oy hbs

/-- Witness for C1 on a concrete 3×2 raster with 2-pixel blocks and a
mixed-sign crop offset. -/
theorem spiral_pass_partition_witness :
    0 < 2 ∧
    (∃ s' ts,
      runTiles (spiralInit 3 2 5 (-1) 2 1).blockCount (spiralInit 3 2 5 (-1) 2 1) =
        some (s', ts) ∧
      ts.length = (spiralInit 3 2 5 (-1) 2 1).blockCount ∧
      (∀ t ∈ ts, 0 < t.2.1 ∧ 0 < t.2.2) ∧
      List.Pairwise (fun t t' => ∀ p : Int × Int, ¬ (inTile p t ∧ inTile p t')) ts ∧
      (∀ p : Int × Int, (∃ t ∈ ts, inTile p t) ↔
        (5 ≤ p.1 ∧ p.1 < 5 + ((3 : Nat) : Int) ∧ -1 ≤ p.2 ∧ p.2 < -1 + ((2 : Nat) : Int)))) :=
  ⟨by decide, spiral_pass_partition 3 2 2 1 5 (-1) (by decide)⟩

/-- C10: with block_count ≥ 1 and block size > 0, every sequence of
next_block calls from the freshly constructed scheduler succeeds — in
particular the inner do-while advance loop (modelled with the explicit
fuel bound spiralFuel, whose exhaustion would yield none) always
re-enters the block grid in finitely many steps from every reachable
state. -/
theorem spiral_advance_terminates (W H bs passes : Nat) (ox oy : Int) (hbs : 0 < bs)
    (hcnt : 1 ≤ cdiv W bs * cdiv H bs) :
    ∀ m, ∃ out, runTiles m (spiralInit W H ox oy bs passes) = some out := fun m =>
  runTiles_total W H bs ox oy hbs hcnt m _
    (Or.inl ⟨0, 0, spiralInit_inv W H bs passes ox oy hcnt⟩)

/-- Witness for C10 on the 65×65 / 32 configuration with two passes. -/
theorem spiral_advance_terminates_witness :
    0 < 32 ∧ 1 ≤ cdiv 65 32 * cdiv 65 32 ∧
    ∀ m, ∃ out, runTiles m (spiralInit 65 65 0 0 32 2) = some out :=
  ⟨by decide, by decide, spiral_advance_terminates 65 65 32 2 0 0 (by decide) (by decide)⟩

/-- C8 (amended): for a zero-area image, block_count = 0 and — provided
passes ≤ 1 — every call to next_block immediately returns the terminal
(0,0) tile without error. The unrestricted claim (any number of passes)
fails: see the counterexample, where passes = 2 makes the first call
take the pass-restart branch and trip Assert(all(size > 0)). -/
theorem spiral_zero_area_terminal (W H bs passes : Nat) (ox oy : Int)
    (hz : W = 0 ∨ H = 0) (hp : passes ≤ 1) :
    (spiralInit W H ox oy bs passes).blockCount = 0 ∧
    ∀ m, runTiles m (spiralInit W H ox oy bs passes) =
      some (spiralInit W H ox oy bs passes, List.replicate m ((0, 0), (0, 0))) :=
  spiral_zero_area_run W H bs passes ox oy hz hp

/-- Witness for C8 on a 0×7 image with one pass. -/
theorem spiral_zero_area_terminal_witness :
    ((0 : Nat) = 0 ∨ (7 : Nat) = 0) ∧ (1 : Nat) ≤ 1 ∧
    ((spiralInit 0 7 2 3 16 1).blockCount = 0 ∧
     ∀ m, runTiles m (spiralInit 0 7 2 3 16 1) =
       some (spiralInit 0 7 2 3 16 1, List.replicate m ((0, 0), (0, 0)))) :=
  ⟨by decide, by decide, spiral_zero_area_terminal 0 7 16 1 2 3 (by decide) (by decide)⟩

/-- C8 counterexample: a zero-area image (0×5) scheduled with
passes = 2 has block_count = 0, but the very first next_block call does
not return the terminal tile: it decrements the pass counter, resets,
and then trips Assert(all(size > 0)) (modelled as none). -/
theorem spiral_zero_area_cex :
    (spiralInit 0 5 0 0 32 2).blockCount = 0 ∧
    nextBlock (spiralInit 0 5 0 0 32 2) = none := by decide

/-- C4: on a 65×65 image with 32-pixel blocks and one pass the grid is
3×3, block_count = 9; the first nine calls return positive-size tiles,
the tenth returns the (0,0) sentinel; tiles on the clipped edge
(offset 64) have size 1 there and all other extents are 32. -/
theorem spiral_blocks_65 :
    (spiralInit 65 65 0 0 32 1).blockCount = 9 ∧
    (runTiles 10 (spiralInit 65 65 0 0 32 1)).map (fun out => out.2) = some c4Tiles ∧
    (∀ t ∈ c4Tiles.take 9, 0 < t.2.1 ∧ 0 < t.2.2) ∧
    c4Tiles.getD 9 ((1, 1), (1, 1)) = ((0, 0), (0, 0)) ∧
    (∀ t ∈ c4Tiles.take 9,
      (t.2.1 = if t.1.1 = 64 then 1 else 32) ∧ (t.2.2 = if t.1.2 = 64 then 1 else 32)) := by
  refine ⟨by decide, ?_, by decide, by decide, by decide⟩
  decide

/-- C2: in a batched put, the final buffer value at every in-bounds
index equals the initial value plus the sum over all lanes of that
lane's weighted contribution to the index — in particular, when several
active valid lanes resolve to the same destination index their
contributions are summed, never overwritten (the conflict-safe
enoki::transform scatter of imageblock.cpp lines 185-202). -/
theorem putVector_conflict_sum (blk : ImageBlock) (posL : List (Rat × Rat))
    (vals : List (List Rat)) (active : List Bool) (i : Nat)
    (hi : i < blk.data.length) :
    (putVector blk posL vals active).1.data.getD i 0 =
      blk.data.getD i 0 +
        Finset.sum (Finset.range active.length)
          (fun j => laneContrib blk posL vals active j i) :=
  putVector_data_getD blk posL vals active i hi

/-- Witness for C2: two active valid lanes of a 1×1 block both land on
index 0 with values 2 and 3; the buffer receives 2 + 3 = 5. -/
theorem putVector_conflict_sum_witness :
    0 < (constOneBlock 1 1 1 false).data.length ∧
    (putVector (constOneBlock 1 1 1 false) [(1/2, 1/2), (1/2, 1/2)] [[2, 3]]
        [true, true]).1.data = [5] ∧
    (putVector (constOneBlock 1 1 1 false) [(1/2, 1/2), (1/2, 1/2)] [[2, 3]]
        [true, true]).1.data.getD 0 0 =
      (constOneBlock 1 1 1 false).data.getD 0 0 +
        Finset.sum (Finset.range ([true, true] : List Bool).length)
          (fun j => laneContrib (constOneBlock 1 1 1 false)
            [(1/2, 1/2), (1/2, 1/2)] [[2, 3]] [true, true] j 0) :=
  ⟨by decide, by with_unfolding_all decide,
   putVector_conflict_sum (constOneBlock 1 1 1 false) [(1/2, 1/2), (1/2, 1/2)]
     [[2, 3]] [true, true] 0 (by decide)⟩

/-- C5 (amended): with warn_on_invalid set, the scalar put rejects the
whole sample (returns false, buffer untouched) as soon as one channel is
negative; the batched put's returned mask is false exactly for the
lanes that are ACTIVE and carry an invalid channel (an inactive lane is
reported valid even if its values are invalid — see the counterexample);
lanes that are inactive or invalid contribute nothing, and every other
lane accumulates normally per the additive identity. -/
theorem put_warn_isolation (blk : ImageBlock) (hw : blk.warn = true) :
    (∀ (pos : Rat × Rat) (value : List Rat),
        (∃ k, k < blk.channels ∧ value.getD k 0 < 0) →
        putScalar blk pos value = (blk, false)) ∧
    (∀ (posL : List (Rat × Rat)) (vals : List (List Rat)) (active : List Bool)
        (j : Nat), j < active.length →
        ((putVector blk posL vals active).2.getD j true = false ↔
          (active.getD j false = true ∧ laneValid blk.channels vals j = false))) ∧
    (∀ (posL : List (Rat × Rat)) (vals : List (List Rat)) (active : List Bool)
        (j i : Nat),
        (active.getD j false = false ∨ laneValid blk.channels vals j = false) →
        laneContrib blk posL vals active j i = 0) ∧
    (∀ (posL : List (Rat × Rat)) (vals : List (List Rat)) (active : List Bool)
        (i : Nat), i < blk.data.length →
        (putVector blk posL vals active).1.data.getD i 0 =
          blk.data.getD i 0 +
            Finset.sum (Finset.range active.length)
              (fun j => laneContrib blk posL vals active j i)) := by
  refine ⟨?_, ?_, ?_, ?_⟩
  · intro pos value hneg
    rcases hneg with ⟨k, hk, hkneg⟩
    have hvs : ¬ validSample blk.channels value = true := by
      intro hvs
      unfold validSample at hvs
      rw [List.all_eq_true] at hvs
      have := hvs k (List.mem_range.2 hk)
      simp only [decide_eq_true_eq] at this
      linarith
    unfold putScalar
    rw [if_pos ⟨hw, hvs⟩]
  · intro posL vals active j hj
    rw [putVector_snd, isValidMask_getD blk active vals hw j hj]
    cases active.getD j false <;> cases laneValid blk.channels vals j <;> simp
  · intro posL vals active j i h
    rcases h with ha | hv
    · exact laneContrib_eq_zero blk posL vals active j i (Or.inl ha)
    · by_cases ha : active.getD j false = true
      · have hj : j < active.length := getD_true_lt active j ha
        refine laneContrib_eq_zero blk posL vals active j i (Or.inr ?_)
        rw [isValidMask_getD blk active vals hw j hj, ha, hv]
        rfl
      · exact laneContrib_eq_zero blk posL vals active j i
          (Or.inl (by revert ha; cases active.getD j false <;> simp))
  · intro posL vals active i hi
    exact putVector_data_getD blk posL vals active i hi

/-- Witness for C5 on a warning-enabled 1×1 block. -/
theorem put_warn_isolation_witness :
    (constOneBlock 1 1 1 true).warn = true ∧
    ((∀ (pos : Rat × Rat) (value : List Rat),
        (∃ k, k < (constOneBlock 1 1 1 true).channels ∧ value.getD k 0 < 0) →
        putScalar (constOneBlock 1 1 1 true) pos value = (constOneBlock 1 1 1 true, false)) ∧
    (∀ (posL : List (Rat × Rat)) (vals : List (List Rat)) (active : List Bool)
        (j : Nat), j < active.length →
        ((putVector (constOneBlock 1 1 1 true) posL vals active).2.getD j true = false ↔
          (active.getD j false = true ∧
            laneValid (constOneBlock 1 1 1 true).channels vals j = false))) ∧
    (∀ (posL : List (Rat × Rat)) (vals : List (List Rat)) (active : List Bool)
        (j i : Nat),
        (active.getD j false = false ∨
          laneValid (constOneBlock 1 1 1 true).channels vals j = false) →
        laneContrib (constOneBlock 1 1 1 true) posL vals active j i = 0) ∧
    (∀ (posL : List (Rat × Rat)) (vals : List (List Rat)) (active : List Bool)
        (i : Nat), i < (constOneBlock 1 1 1 true).data.length →
        (putVector (constOneBlock 1 1 1 true) posL vals active).1.data.getD i 0 =
          (constOneBlock 1 1 1 true).data.getD i 0 +
            Finset.sum (Finset.range active.length)
              (fun j => laneContrib (constOneBlock 1 1 1 true) posL vals active j i))) :=
  ⟨by decide, put_warn_isolation (constOneBlock 1 1 1 true) (by decide)⟩

/-- C5 counterexample: an INACTIVE lane whose value is invalid
(negative) is reported valid by the returned mask — the mask is
`~active | valid` (imageblock.cpp line 119), not the per-lane validity
itself, so the mask is not false exactly for the lanes carrying an
invalid channel. -/
theorem put_warn_isolation_cex :
    laneValid (constOneBlock 1 1 1 true).channels [[-1]] 0 = false ∧
    (putVector (constOneBlock 1 1 1 true) [(1/2, 1/2)] [[-1]] [false]).2.getD 0 true
      = true := by with_unfolding_all decide

/-- C6 (code bug): a sample of a 2×2 single-channel block at
x = 100.5 has an empty x-footprint (hi.x = 1 < lo.x = 99). The scalar
put indeed writes nothing, but returns true ("accumulated") rather than
reporting no contribution; the batched put's window clamp
max(hi−lo,0) = 0 re-enables tap xr = 0, so the lane stays enabled and
scatters weight-1 writes at flat indices 99 and 101 — far beyond the
4-entry buffer — and its returned mask does not exclude the sample. -/
theorem put_empty_footprint_oob :
    ((footHi (constOneBlock 2 2 1 false)
        (localize (constOneBlock 2 2 1 false) (201/2, 1))).1 <
     (footLo (constOneBlock 2 2 1 false)
        (localize (constOneBlock 2 2 1 false) (201/2, 1))).1) ∧
    (constOneBlock 2 2 1 false).data.length = 4 ∧
    vectorWrites (constOneBlock 2 2 1 false) [(201/2, 1)] [[1]] [true] =
      [(99, 1), (101, 1)] ∧
    (putVector (constOneBlock 2 2 1 false) [(201/2, 1)] [[1]] [true]).2 = [true] ∧
    (putScalar (constOneBlock 2 2 1 false) (201/2, 1) [1]).2 = true ∧
    scalarWrites (constOneBlock 2 2 1 false)
      (localize (constOneBlock 2 2 1 false) (201/2, 1)) [1] = [] := by
  with_unfolding_all decide

/-- C7 counterexample: there is no normalize option — the ImageBlock
constructor (imageblock.cpp lines 5-28) takes only (fmt, size, filter,
channels, warn) and put never rescales: splatting value 1 with a
discretized kernel that is constantly 1 on a 3×3 block deposits total
weight 9, not 1. -/
theorem put_normalize_cex :
    ((putScalar (constOneBlock 3 3 1 false) (3/2, 3/2) [1]).1.data).sum = 9 ∧
    ((9 : Rat) ≠ 1) := by with_unfolding_all decide

/-- C7 (amended): the scalar put accumulates the raw separable filter
weights with no rescaling: the buffer total grows by exactly
(Σ_x w_x)·(Σ_y w_y)·(Σ_k value_k) over the footprint — weights are
taken from eval_discretized as-is, so the footprint's total weight is
whatever the kernel sums to, not 1. -/
theorem putScalar_total (blk : ImageBlock) (pos : Rat × Rat) (value : List Rat)
    (hdata : blk.data.length = (blk.bsizeX * blk.bsizeY * blk.channels).toNat)
    (hok : blk.warn = false ∨ validSample blk.channels value = true) :
    ((putScalar blk pos value).1.data).sum =
      blk.data.sum +
        (((intRange (footLo blk (localize blk pos)).1
              (footHi blk (localize blk pos)).1).map
            (fun x : Int => blk.evalDisc ((x : Rat) - (localize blk pos).1))).sum) *
        (((intRange (footLo blk (localize blk pos)).2
              (footHi blk (localize blk pos)).2).map
            (fun y : Int => blk.evalDisc ((y : Rat) - (localize blk pos).2))).sum) *
        (((List.range blk.channels).map (fun k => value.getD k 0)).sum) := by
  have hnc : ¬ (blk.warn ∧ ¬ validSample blk.channels value) := by
    rcases hok with hw | hv
    · intro h; rw [hw] at h; exact Bool.false_ne_true h.1
    · intro h; exact h.2 hv
  rw [putScalar_fst blk pos value]
  show (if blk.warn ∧ ¬ validSample blk.channels value then blk.data
        else applyWrites blk.data (scalarWrites blk (localize blk pos) value)).sum = _
  rw [if_neg hnc,
    sum_applyWrites _ blk.data (scalarWrites_idx_lt blk (localize blk pos) value hdata),
    scalarWrites_sum]

/-- Witness for C7 at the concrete 3×3 instance of the counterexample:
the closed-form total is 3·3·1 = 9. -/
theorem putScalar_total_witness :
    (constOneBlock 3 3 1 false).data.length =
      ((constOneBlock 3 3 1 false).bsizeX * (constOneBlock 3 3 1 false).bsizeY *
        ((constOneBlock 3 3 1 false).channels : Int)).toNat ∧
    ((constOneBlock 3 3 1 false).warn = false ∨
      validSample (constOneBlock 3 3 1 false).channels [1] = true) ∧
    ((putScalar (constOneBlock 3 3 1 false) (3/2, 3/2) [1]).1.data).sum =
      (constOneBlock 3 3 1 false).data.sum +
        (((intRange (footLo (constOneBlock 3 3 1 false)
              (localize (constOneBlock 3 3 1 false) (3/2, 3/2))).1
              (footHi (constOneBlock 3 3 1 false)
                (localize (constOneBlock 3 3 1 false) (3/2, 3/2))).1).map
            (fun x : Int => (constOneBlock 3 3 1 false).evalDisc
              ((x : Rat) - (localize (constOneBlock 3 3 1 false) (3/2, 3/2)).1))).sum) *
        (((intRange (footLo (constOneBlock 3 3 1 false)
              (localize (constOneBlock 3 3 1 false) (3/2, 3/2))).2
              (footHi (constOneBlock 3 3 1 false)
                (localize (constOneBlock 3 3 1 false) (3/2, 3/2))).2).map
            (fun y : Int => (constOneBlock 3 3 1 false).evalDisc
              ((y : Rat) - (localize (constOneBlock 3 3 1 false) (3/2, 3/2)).2))).sum) *
        (((List.range (constOneBlock 3 3 1 false).channels).map
            (fun k => ([1] : List Rat).getD k 0)).sum) :=
  ⟨by with_unfolding_all decide, by with_unfolding_all decide,
   putScalar_total (constOneBlock 3 3 1 false) (3/2, 3/2) [1]
     (by with_unfolding_all decide) (by with_unfolding_all decide)⟩

/-- C9 (amended): two successive scalar puts at the same position are
equivalent to one put of the channel-wise sum, PROVIDED warn_on_invalid
is off or both samples are valid — with warn on, rejection is not
additive (see the counterexample). -/
theorem putScalar_additive (blk : ImageBlock) (pos : Rat × Rat) (v1 v2 : List Rat)
    (h1 : v1.length = blk.channels) (h2 : v2.length = blk.channels)
    (hv : blk.warn = false ∨ (validSample blk.channels v1 = true ∧
      validSample blk.channels v2 = true)) :
    (putScalar (putScalar blk pos v1).1 pos v2).1.data =
      (putScalar blk pos (List.zipWith (fun a b => a + b) v1 v2)).1.data :=
  putScalar_add_core blk pos v1 v2 h1 h2 hv

/-- Witness for C9: value [1] then [2] equals one put of [3] on a 1×1
block. -/
theorem putScalar_additive_witness :
    ([(1 : Rat)].length = (constOneBlock 1 1 1 false).channels) ∧
    ([(2 : Rat)].length = (constOneBlock 1 1 1 false).channels) ∧
    ((constOneBlock 1 1 1 false).warn = false ∨
      (validSample (constOneBlock 1 1 1 false).channels [1] = true ∧
        validSample (constOneBlock 1 1 1 false).channels [2] = true)) ∧
    ((putScalar (putScalar (constOneBlock 1 1 1 false) (1/2, 1/2) [1]).1
        (1/2, 1/2) [2]).1.data =
      (putScalar (constOneBlock 1 1 1 false) (1/2, 1/2)
        (List.zipWith (fun a b => a + b) [1] [2])).1.data) :=
  ⟨by decide, by decide, by with_unfolding_all decide,
   putScalar_additive (constOneBlock 1 1 1 false) (1/2, 1/2) [1] [2]
     (by decide) (by decide) (by with_unfolding_all decide)⟩

/-- C9 counterexample: with warn on, put([-1]) is rejected (buffer
unchanged) and put([2]) then deposits 2, but the single combined
put([-1 + 2] = [1]) is accepted and deposits 1 — the two buffer states
differ, so the unrestricted additivity claim fails. -/
theorem putScalar_additive_cex :
    (putScalar (putScalar (constOneBlock 1 1 1 true) (1/2, 1/2) [-1]).1
        (1/2, 1/2) [2]).1.data ≠
      (putScalar (constOneBlock 1 1 1 true) (1/2, 1/2)
        (List.zipWith (fun a b => a + b) [-1] [2])).1.data := by
  with_unfolding_all decide

end Mitsuba
